import Mathlib

/-!
Verification development for the `property-services` repository
(`search-api`, Go).  Go strings are modelled as `List Char` (byte/rune
distinctions are immaterial for the ASCII data handled by the claims);
stateful components are modelled by explicit state passing.  Every
definition mirrors a named Go function of the repository; the doc
comment of each definition names its source.
-/

namespace PropSvc

/-- Go string, modelled as a list of characters. -/
abbrev S := List Char

/-- Go `unicode.IsSpace` restricted to the Latin-1 range (the only code
points our inputs contain): `\t \n \v \f \r space NEL NBSP`. -/
def goIsSpace (c : Char) : Bool :=
  c.toNat = 9 || c.toNat = 10 || c.toNat = 11 || c.toNat = 12 || c.toNat = 13 ||
  c.toNat = 32 || c.toNat = 133 || c.toNat = 160

/-- The character class `\s` of Go's RE2 `regexp`: `[\t\n\f\r ]`. -/
def reIsSpace (c : Char) : Bool :=
  c.toNat = 9 || c.toNat = 10 || c.toNat = 12 || c.toNat = 13 || c.toNat = 32

/-- The character class `[A-Za-z0-9]`. -/
def isAlnumAscii (c : Char) : Bool :=
  (65 ≤ c.toNat && c.toNat ≤ 90) || (97 ≤ c.toNat && c.toNat ≤ 122) ||
  (48 ≤ c.toNat && c.toNat ≤ 57)

/-- Go `strings.ToUpper`, ASCII fragment (`Char.toUpper` uppercases
exactly `a`-`z`, as Go does on ASCII input). -/
def goToUpper (s : S) : S := s.map Char.toUpper

/-- Go `strings.ToLower`, ASCII fragment. -/
def goToLower (s : S) : S := s.map Char.toLower

/-- Left part of Go `strings.TrimSpace`. -/
def trimLeft (s : S) : S := s.dropWhile goIsSpace

/-- Right part of Go `strings.TrimSpace`. -/
def trimRight (s : S) : S := (s.reverse.dropWhile goIsSpace).reverse

/-- Go `strings.TrimSpace`. -/
def trimSpace (s : S) : S := trimRight (trimLeft s)

/-- Fuel-indexed worker for `fields` (structural recursion so that the
kernel can evaluate it; the fuel is always at least the list length). -/
def fieldsFuel : Nat → S → List S
  | _, [] => []
  | 0, _ :: _ => []
  | fuel + 1, c :: rest =>
    if goIsSpace c then fieldsFuel fuel rest
    else (c :: rest.takeWhile (fun d => !goIsSpace d)) ::
      fieldsFuel fuel (rest.dropWhile (fun d => !goIsSpace d))

/-- Go `strings.Fields`: maximal runs of non-space characters. -/
def fields (s : S) : List S := fieldsFuel s.length s

theorem fieldsFuel_nil (n : Nat) : fieldsFuel n [] = [] := by
  cases n <;> rfl

theorem fieldsFuel_congr : ∀ (n m : Nat) (s : S), s.length ≤ n → s.length ≤ m →
    fieldsFuel n s = fieldsFuel m s := by
  intro n
  induction n with
  | zero =>
    intro m s hn _
    match s with
    | [] => rw [fieldsFuel_nil, fieldsFuel_nil]
    | _ :: _ => simp at hn
  | succ n ih =>
    intro m s hn hm
    match s, m with
    | [], _ => rw [fieldsFuel_nil, fieldsFuel_nil]
    | _ :: _, 0 => simp at hm
    | c :: rest, m + 1 =>
      have hd := (List.dropWhile_suffix (l := rest) (fun d => !goIsSpace d)).sublist.length_le
      simp only [List.length_cons] at hn hm
      simp only [fieldsFuel]
      split
      · exact ih m rest (by omega) (by omega)
      · rw [ih m (rest.dropWhile (fun d => !goIsSpace d)) (by omega) (by omega)]

/-- The defining unfolding of `fields` on a cons cell. -/
theorem fields_cons (c : Char) (rest : S) :
    fields (c :: rest) =
      if goIsSpace c then fields rest
      else (c :: rest.takeWhile (fun d => !goIsSpace d)) ::
        fields (rest.dropWhile (fun d => !goIsSpace d)) := by
  have hd := (List.dropWhile_suffix (l := rest) (fun d => !goIsSpace d)).sublist.length_le
  simp only [fields, List.length_cons, fieldsFuel]
  split
  · rfl
  · rw [fieldsFuel_congr rest.length
      (rest.dropWhile (fun d => !goIsSpace d)).length
      (rest.dropWhile (fun d => !goIsSpace d)) (by omega) (by omega)]

/-- Go `strings.Join ws " "`. -/
def joinSp : List S → S
  | [] => []
  | [w] => w
  | w :: ws => w ++ ' ' :: joinSp ws

/-- `collapseSpaces` from `internal/canon/address.go`:
`strings.Join(strings.Fields(s), " ")`. -/
def collapseSpaces (s : S) : S := joinSp (fields s)

/-- Go `strings.Index hay pat`: index of the first occurrence. -/
def strIndex : S → S → Option Nat
  | hay, pat =>
    if pat.isPrefixOf hay then some 0
    else
      match hay with
      | [] => none
      | _ :: rest => (strIndex rest pat).map (· + 1)

/-- The trailing-unit designators searched by `stripUnit`, in source order. -/
def unitToks : List S :=
  [" APT ".data, " UNIT ".data, " STE ".data, " SUITE ".data, " #".data]

/-- The token loop of `stripUnit`: index of the first token that occurs
(in the fixed source order of `toks`). -/
def stripUnitLoop (up : S) : List S → Option Nat
  | [] => none
  | t :: ts =>
    match strIndex up t with
    | some i => some i
    | none => stripUnitLoop up ts

/-- `stripUnit` from `internal/canon/address.go`: pad with spaces, truncate
at the first occurrence of a unit designator, trim. -/
def stripUnit (s : S) : S :=
  match stripUnitLoop (' ' :: (s ++ [' '])) unitToks with
  | some i => trimSpace ((' ' :: (s ++ [' '])).take i)
  | none => trimSpace s

/-- `rePunct.ReplaceAllString s " "` with `rePunct = [^A-Za-z0-9\s]`:
every character outside the class becomes one space. -/
def rePunctToSpace (s : S) : S :=
  s.map (fun c => if isAlnumAscii c || reIsSpace c then c else ' ')

/-- Fuel-indexed worker for `replaceAllAux` (structural recursion so the
kernel can evaluate it; fuel is always at least the list length). -/
def replaceAllFuel (p : Char) (ps rep : S) : Nat → S → S
  | _, [] => []
  | 0, s => s
  | fuel + 1, c :: rest =>
    if (p :: ps).isPrefixOf (c :: rest) then
      rep ++ replaceAllFuel p ps rep fuel (rest.drop ps.length)
    else
      c :: replaceAllFuel p ps rep fuel rest

/-- Go `strings.ReplaceAll` on a nonempty pattern `p :: ps`: replace
non-overlapping occurrences left to right. -/
def replaceAllAux (p : Char) (ps rep : S) (s : S) : S :=
  replaceAllFuel p ps rep s.length s

theorem replaceAllFuel_nil (p : Char) (ps rep : S) (n : Nat) :
    replaceAllFuel p ps rep n [] = [] := by
  cases n <;> rfl

theorem replaceAllFuel_congr (p : Char) (ps rep : S) :
    ∀ (n m : Nat) (s : S), s.length ≤ n → s.length ≤ m →
      replaceAllFuel p ps rep n s = replaceAllFuel p ps rep m s := by
  intro n
  induction n with
  | zero =>
    intro m s hn _
    match s with
    | [] => rw [replaceAllFuel_nil, replaceAllFuel_nil]
    | _ :: _ => simp at hn
  | succ n ih =>
    intro m s hn hm
    match s, m with
    | [], _ => rw [replaceAllFuel_nil, replaceAllFuel_nil]
    | _ :: _, 0 => simp at hm
    | c :: rest, m + 1 =>
      simp only [List.length_cons] at hn hm
      have hd : (rest.drop ps.length).length ≤ rest.length := by
        simp only [List.length_drop]
        omega
      simp only [replaceAllFuel]
      split
      · rw [ih m (rest.drop ps.length) (by omega) (by omega)]
      · rw [ih m rest (by omega) (by omega)]

/-- The defining unfolding of `replaceAllAux` on a cons cell. -/
theorem replaceAllAux_cons (p : Char) (ps rep : S) (c : Char) (rest : S) :
    replaceAllAux p ps rep (c :: rest) =
      if (p :: ps).isPrefixOf (c :: rest) then
        rep ++ replaceAllAux p ps rep (rest.drop ps.length)
      else
        c :: replaceAllAux p ps rep rest := by
  have hd : (rest.drop ps.length).length ≤ rest.length := by
    simp only [List.length_drop]
    omega
  simp only [replaceAllAux, List.length_cons, replaceAllFuel]
  split
  · rw [replaceAllFuel_congr p ps rep rest.length (rest.drop ps.length).length
      (rest.drop ps.length) (by omega) (by omega)]
  · rfl

/-- Go `strings.ReplaceAll s pat rep` (patterns used in this code base are
nonempty; the empty pattern case is never reached). -/
def replaceAll (s pat rep : S) : S :=
  match pat with
  | [] => s
  | p :: ps => replaceAllAux p ps rep s

/-- The suffix-abbreviation table of `abbreviateSuffix`, in source listing
order.  (Go iterates this map in unspecified order; the replacements are
pairwise non-interfering on the inputs considered, so a fixed order is a
faithful model.) -/
def suffixRepl : List (S × S) :=
  [(" STREET".data, " ST".data), (" ROAD".data, " RD".data),
   (" AVENUE".data, " AVE".data), (" BOULEVARD".data, " BLVD".data),
   (" DRIVE".data, " DR".data), (" LANE".data, " LN".data),
   (" COURT".data, " CT".data), (" CIRCLE".data, " CIR".data),
   (" TERRACE".data, " TER".data), (" PLACE".data, " PL".data),
   (" PARKWAY".data, " PKWY".data), (" HIGHWAY".data, " HWY".data)]

/-- `abbreviateSuffix` from `internal/canon/address.go`. -/
def abbreviateSuffix (s : S) : S :=
  suffixRepl.foldl (fun acc kv => replaceAll acc kv.1 kv.2) s

/-- `trimZIP` from `internal/canon/address.go`. -/
def trimZIP (z : S) : S :=
  let z := trimSpace z
  if z.length ≥ 5 then z.take 5 else z

/-- Association-list lookup mirroring Go's map access `m[s]`. -/
def lookupTbl : List (S × S) → S → Option S
  | [], _ => none
  | (k, v) :: rest, s => if s = k then some v else lookupTbl rest s

/-- The 50-state table of `stateAbbrev`. -/
def stateTable : List (S × S) :=
  [("ALABAMA".data, "AL".data), ("ALASKA".data, "AK".data),
   ("ARIZONA".data, "AZ".data), ("ARKANSAS".data, "AR".data),
   ("CALIFORNIA".data, "CA".data), ("COLORADO".data, "CO".data),
   ("CONNECTICUT".data, "CT".data), ("DELAWARE".data, "DE".data),
   ("FLORIDA".data, "FL".data), ("GEORGIA".data, "GA".data),
   ("HAWAII".data, "HI".data), ("IDAHO".data, "ID".data),
   ("ILLINOIS".data, "IL".data), ("INDIANA".data, "IN".data),
   ("IOWA".data, "IA".data), ("KANSAS".data, "KS".data),
   ("KENTUCKY".data, "KY".data), ("LOUISIANA".data, "LA".data),
   ("MAINE".data, "ME".data), ("MARYLAND".data, "MD".data),
   ("MASSACHUSETTS".data, "MA".data), ("MICHIGAN".data, "MI".data),
   ("MINNESOTA".data, "MN".data), ("MISSISSIPPI".data, "MS".data),
   ("MISSOURI".data, "MO".data), ("MONTANA".data, "MT".data),
   ("NEBRASKA".data, "NE".data), ("NEVADA".data, "NV".data),
   ("NEW HAMPSHIRE".data, "NH".data), ("NEW JERSEY".data, "NJ".data),
   ("NEW MEXICO".data, "NM".data), ("NEW YORK".data, "NY".data),
   ("NORTH CAROLINA".data, "NC".data), ("NORTH DAKOTA".data, "ND".data),
   ("OHIO".data, "OH".data), ("OKLAHOMA".data, "OK".data),
   ("OREGON".data, "OR".data), ("PENNSYLVANIA".data, "PA".data),
   ("RHODE ISLAND".data, "RI".data), ("SOUTH CAROLINA".data, "SC".data),
   ("SOUTH DAKOTA".data, "SD".data), ("TENNESSEE".data, "TN".data),
   ("TEXAS".data, "TX".data), ("UTAH".data, "UT".data),
   ("VERMONT".data, "VT".data), ("VIRGINIA".data, "VA".data),
   ("WASHINGTON".data, "WA".data), ("WEST VIRGINIA".data, "WV".data),
   ("WISCONSIN".data, "WI".data), ("WYOMING".data, "WY".data)]

/-- `stateAbbrev` from `internal/canon/address.go`: full state name to
USPS code; unrecognized values pass through unchanged. -/
def stateAbbrev (s : S) : S :=
  match lookupTbl stateTable s with
  | some v => v
  | none => s

/-- The result tuple of `Canonicalize`. -/
structure CanonResult where
  line1 : S
  city : S
  state : S
  zip : S
  key : S
deriving DecidableEq, Repr

/-- The `n1` pipeline of `Canonicalize`: trim/uppercase, strip trailing
unit designators, punctuation to whitespace, suffix abbreviation,
whitespace collapse. -/
def normLine1 (line1 : S) : S :=
  collapseSpaces (abbreviateSuffix (rePunctToSpace (stripUnit (trimSpace (goToUpper line1)))))

/-- The `c` pipeline of `Canonicalize`. -/
def normCity (city : S) : S :=
  collapseSpaces (rePunctToSpace (goToUpper (trimSpace city)))

/-- The `st` pipeline of `Canonicalize`. -/
def normState (state : S) : S :=
  let st0 := goToUpper (trimSpace state)
  if st0.length > 2 then stateAbbrev st0 else st0

/-- The `z` pipeline of `Canonicalize`. -/
def normZip (zip : S) : S := trimZIP zip

/-- `Canonicalize` from `internal/canon/address.go`: the four normalized
fields and the lowercase `|`-joined property key. -/
def Canonicalize (line1 city state zip : S) : CanonResult :=
  ⟨normLine1 line1, normCity city, normState state, normZip zip,
   goToLower (normLine1 line1 ++ '|' ::
     (normCity city ++ '|' :: (normState state ++ '|' :: normZip zip)))⟩

/-! ### Character-level facts used by the canonicalizer proofs -/

theorem toNat_ofNat_valid {n : Nat} (hv : n.isValidChar) : (Char.ofNat n).toNat = n := by
  simp [Char.ofNat, hv, Char.ofNatAux, Char.toNat, UInt32.toNat, BitVec.toNat_ofNatLt]

theorem toUpper_toNat_of_lower {c : Char} (h : 97 ≤ c.toNat ∧ c.toNat ≤ 122) :
    c.toUpper.toNat = c.toNat - 32 := by
  have hv : (c.toNat - 32).isValidChar := by
    left
    omega
  simp only [Char.toUpper, ge_iff_le, h, and_true, if_pos, h.1]
  exact toNat_ofNat_valid hv

theorem toUpper_eq_of_not_lower {c : Char} (h : ¬(97 ≤ c.toNat ∧ c.toNat ≤ 122)) :
    c.toUpper = c := by
  simp only [Char.toUpper]
  split
  · omega
  · rfl

theorem toUpper_idem (c : Char) : c.toUpper.toUpper = c.toUpper := by
  by_cases h : 97 ≤ c.toNat ∧ c.toNat ≤ 122
  · have h1 := toUpper_toNat_of_lower h
    exact toUpper_eq_of_not_lower (by omega)
  · rw [toUpper_eq_of_not_lower h, toUpper_eq_of_not_lower h]

theorem goIsSpace_toUpper (c : Char) : goIsSpace c.toUpper = goIsSpace c := by
  by_cases h : 97 ≤ c.toNat ∧ c.toNat ≤ 122
  · have h1 := toUpper_toNat_of_lower h
    simp only [goIsSpace, h1]
    apply Bool.eq_iff_iff.mpr
    simp only [Bool.or_eq_true, decide_eq_true_eq]
    omega
  · rw [toUpper_eq_of_not_lower h]

theorem reIsSpace_goIsSpace {c : Char} (h : reIsSpace c = true) : goIsSpace c = true := by
  simp only [reIsSpace, Bool.or_eq_true, decide_eq_true_eq] at h
  simp only [goIsSpace, Bool.or_eq_true, decide_eq_true_eq]
  omega

/-! ### Membership/propagation lemmas for the canonicalizer stages -/

theorem mem_trimLeft {c : Char} {s : S} (h : c ∈ trimLeft s) : c ∈ s :=
  (List.dropWhile_suffix goIsSpace).sublist.subset h

theorem mem_trimRight {c : Char} {s : S} (h : c ∈ trimRight s) : c ∈ s := by
  simp only [trimRight, List.mem_reverse] at h
  have := (List.dropWhile_suffix (l := s.reverse) goIsSpace).sublist.subset h
  simpa using this

theorem mem_trimSpace {c : Char} {s : S} (h : c ∈ trimSpace s) : c ∈ s :=
  mem_trimLeft (mem_trimRight h)

theorem mem_stripUnit {c : Char} {s : S} (h : c ∈ stripUnit s) : c ∈ s ∨ c = ' ' := by
  simp only [stripUnit] at h
  rcases hm : stripUnitLoop (' ' :: (s ++ [' '])) unitToks with _ | i
  · rw [hm] at h
    exact Or.inl (mem_trimSpace h)
  · rw [hm] at h
    have h1 := List.take_subset i (' ' :: (s ++ [' '])) (mem_trimSpace h)
    simp only [List.mem_cons, List.mem_append, List.not_mem_nil, or_false] at h1
    rcases h1 with h1 | h1 | h1
    · exact Or.inr h1
    · exact Or.inl h1
    · exact Or.inr h1

theorem mem_rePunct {c : Char} {s : S} (h : c ∈ rePunctToSpace s) :
    (c ∈ s ∧ (isAlnumAscii c || reIsSpace c) = true) ∨ c = ' ' := by
  simp only [rePunctToSpace, List.mem_map] at h
  obtain ⟨d, hd, hc⟩ := h
  by_cases hk : (isAlnumAscii d || reIsSpace d) = true
  · rw [if_pos hk] at hc
    subst hc
    exact Or.inl ⟨hd, hk⟩
  · rw [if_neg hk] at hc
    exact Or.inr hc.symm

theorem mem_replaceAllAux {c : Char} {p : Char} {ps rep : S} :
    ∀ (n : Nat) (s : S), s.length ≤ n → c ∈ replaceAllAux p ps rep s → c ∈ s ∨ c ∈ rep := by
  intro n
  induction n with
  | zero =>
    intro s hn h
    match s with
    | [] => simp [replaceAllAux, replaceAllFuel] at h
    | _ :: _ => simp at hn
  | succ n ih =>
    intro s hn h
    match s with
    | [] => simp [replaceAllAux, replaceAllFuel] at h
    | d :: rest =>
      rw [replaceAllAux_cons] at h
      simp only [List.length_cons] at hn
      split at h
      · rcases List.mem_append.mp h with h | h
        · exact Or.inr h
        · have hlen : (rest.drop ps.length).length ≤ n := by
            simp only [List.length_drop]
            omega
          rcases ih _ hlen h with h | h
          · exact Or.inl (List.mem_cons_of_mem d (List.drop_subset _ _ h))
          · exact Or.inr h
      · rcases List.mem_cons.mp h with h | h
        · exact Or.inl (h ▸ List.mem_cons_self d rest)
        · rcases ih rest (by omega) h with h | h
          · exact Or.inl (List.mem_cons_of_mem d h)
          · exact Or.inr h

theorem mem_replaceAll {c : Char} {s pat rep : S} (h : c ∈ replaceAll s pat rep) :
    c ∈ s ∨ c ∈ rep := by
  match pat with
  | [] => exact Or.inl h
  | p :: ps => exact mem_replaceAllAux s.length s le_rfl h

theorem mem_abbrevFold {c : Char} :
    ∀ (l : List (S × S)) (acc : S),
      c ∈ l.foldl (fun acc kv => replaceAll acc kv.1 kv.2) acc →
      c ∈ acc ∨ ∃ kv ∈ l, c ∈ kv.2 := by
  intro l
  induction l with
  | nil =>
    intro acc h
    exact Or.inl h
  | cons kv l ih =>
    intro acc h
    simp only [List.foldl_cons] at h
    rcases ih _ h with h | h
    · rcases mem_replaceAll h with h | h
      · exact Or.inl h
      · exact Or.inr ⟨kv, List.mem_cons_self kv l, h⟩
    · obtain ⟨kv', hkv', hc⟩ := h
      exact Or.inr ⟨kv', List.mem_cons_of_mem kv hkv', hc⟩

theorem mem_abbreviateSuffix {c : Char} {s : S} (h : c ∈ abbreviateSuffix s) :
    c ∈ s ∨ ∃ kv ∈ suffixRepl, c ∈ kv.2 :=
  mem_abbrevFold suffixRepl s h

theorem mem_joinSp {c : Char} :
    ∀ {ws : List S}, c ∈ joinSp ws → (∃ w ∈ ws, c ∈ w) ∨ c = ' ' := by
  intro ws
  induction ws with
  | nil =>
    intro h
    simp [joinSp] at h
  | cons w ws ih =>
    intro h
    match ws with
    | [] =>
      exact Or.inl ⟨w, List.mem_cons_self w [], h⟩
    | x :: xs =>
      simp only [joinSp] at h
      rcases List.mem_append.mp h with h | h
      · exact Or.inl ⟨w, List.mem_cons_self w _, h⟩
      · rcases List.mem_cons.mp h with h | h
        · exact Or.inr h
        · rcases ih h with ⟨w', hw', hc⟩ | h
          · exact Or.inl ⟨w', List.mem_cons_of_mem w hw', hc⟩
          · exact Or.inr h

theorem fields_words :
    ∀ (n : Nat) (s : S), s.length ≤ n →
      ∀ w ∈ fields s, w ≠ [] ∧ ∀ c ∈ w, goIsSpace c = false := by
  intro n
  induction n with
  | zero =>
    intro s hn w hw
    match s with
    | [] => simp [fields, fieldsFuel] at hw
    | _ :: _ => simp at hn
  | succ n ih =>
    intro s hn w hw
    match s with
    | [] => simp [fields, fieldsFuel] at hw
    | c :: rest =>
      rw [fields_cons] at hw
      simp only [List.length_cons] at hn
      split at hw
      · exact ih rest (by omega) w hw
      · rename_i hc
        rcases List.mem_cons.mp hw with hw | hw
        · subst hw
          refine ⟨List.cons_ne_nil _ _, ?_⟩
          intro d hd
          rcases List.mem_cons.mp hd with hd | hd
          · subst hd
            simpa using hc
          · have := List.mem_takeWhile_imp hd
            simpa using this
        · have hlen : (rest.dropWhile (fun d => !goIsSpace d)).length ≤ n := by
            have := (List.dropWhile_suffix (l := rest) (fun d => !goIsSpace d)).sublist.length_le
            omega
          exact ih _ hlen w hw

theorem mem_fields {c : Char} :
    ∀ (n : Nat) (s : S), s.length ≤ n → ∀ w ∈ fields s, c ∈ w → c ∈ s := by
  intro n
  induction n with
  | zero =>
    intro s hn w hw _
    match s with
    | [] => simp [fields, fieldsFuel] at hw
    | _ :: _ => simp at hn
  | succ n ih =>
    intro s hn w hw hc
    match s with
    | [] => simp [fields, fieldsFuel] at hw
    | d :: rest =>
      rw [fields_cons] at hw
      simp only [List.length_cons] at hn
      split at hw
      · exact List.mem_cons_of_mem d (ih rest (by omega) w hw hc)
      · rcases List.mem_cons.mp hw with hw | hw
        · subst hw
          rcases List.mem_cons.mp hc with hc | hc
          · exact hc ▸ List.mem_cons_self d rest
          · exact List.mem_cons_of_mem d ((List.takeWhile_prefix _).subset hc)
        · have hlen : (rest.dropWhile (fun e => !goIsSpace e)).length ≤ n := by
            have := (List.dropWhile_suffix (l := rest) (fun e => !goIsSpace e)).sublist.length_le
            omega
          have := ih _ hlen w hw hc
          exact List.mem_cons_of_mem d ((List.dropWhile_suffix _).sublist.subset this)

theorem mem_collapse {c : Char} {s : S} (h : c ∈ collapseSpaces s) :
    (c ∈ s ∧ goIsSpace c = false) ∨ c = ' ' := by
  rcases mem_joinSp h with ⟨w, hw, hc⟩ | h
  · refine Or.inl ⟨mem_fields s.length s le_rfl w hw hc, ?_⟩
    exact (fields_words s.length s le_rfl w hw).2 c hc
  · exact Or.inr h

/-! ### Collapsed strings are fixed points of the whitespace stages -/

theorem takeWhile_all_append {p : Char → Bool} :
    ∀ {xs : S} (ys : S), (∀ x ∈ xs, p x = true) →
      List.takeWhile p (xs ++ ys) = xs ++ List.takeWhile p ys := by
  intro xs
  induction xs with
  | nil =>
    intro ys _
    rfl
  | cons x xs ih =>
    intro ys h
    have hx : p x = true := h x (List.mem_cons_self x xs)
    simp only [List.cons_append, List.takeWhile_cons, hx, if_true]
    rw [ih ys (fun y hy => h y (List.mem_cons_of_mem x hy))]

theorem dropWhile_all_append {p : Char → Bool} :
    ∀ {xs : S} (ys : S), (∀ x ∈ xs, p x = true) →
      List.dropWhile p (xs ++ ys) = List.dropWhile p ys := by
  intro xs
  induction xs with
  | nil =>
    intro ys _
    rfl
  | cons x xs ih =>
    intro ys h
    have hx : p x = true := h x (List.mem_cons_self x xs)
    simp only [List.cons_append, List.dropWhile_cons, hx, if_true]
    exact ih ys (fun y hy => h y (List.mem_cons_of_mem x hy))

theorem takeWhile_all {p : Char → Bool} {xs : S} (h : ∀ x ∈ xs, p x = true) :
    List.takeWhile p xs = xs := by
  have := takeWhile_all_append [] h
  simpa using this

theorem dropWhile_all {p : Char → Bool} {xs : S} (h : ∀ x ∈ xs, p x = true) :
    List.dropWhile p xs = [] := by
  have := dropWhile_all_append [] h
  simpa using this

/-- A nonempty all-non-space word is one whole field. -/
theorem fields_word {w : S} (hw : w ≠ []) (hsp : ∀ c ∈ w, goIsSpace c = false) :
    fields w = [w] := by
  match w with
  | [] => exact absurd rfl hw
  | c :: rest =>
    have hc : goIsSpace c = false := hsp c (List.mem_cons_self c rest)
    rw [fields_cons]
    simp only [hc, Bool.false_eq_true, if_false]
    have hall : ∀ x ∈ rest, (fun d => !goIsSpace d) x = true := by
      intro x hx
      simp [hsp x (List.mem_cons_of_mem c hx)]
    rw [takeWhile_all hall, dropWhile_all hall]
    rfl

/-- A nonempty all-non-space word followed by a space is split off as the
first field. -/
theorem fields_word_append {w : S} (t : S) (hw : w ≠ [])
    (hsp : ∀ c ∈ w, goIsSpace c = false) :
    fields (w ++ ' ' :: t) = w :: fields t := by
  match w with
  | [] => exact absurd rfl hw
  | c :: rest =>
    have hc : goIsSpace c = false := hsp c (List.mem_cons_self c rest)
    have hall : ∀ x ∈ rest, (fun d => !goIsSpace d) x = true := by
      intro x hx
      simp [hsp x (List.mem_cons_of_mem c hx)]
    simp only [List.cons_append]
    rw [fields_cons]
    simp only [hc, Bool.false_eq_true, if_false]
    rw [takeWhile_all_append (' ' :: t) hall, dropWhile_all_append (' ' :: t) hall]
    have hpf : (fun d => !goIsSpace d) ' ' = false := by decide
    simp only [List.takeWhile_cons, List.dropWhile_cons, hpf, Bool.false_eq_true,
      if_false, List.append_nil]
    rw [fields_cons]
    have hsp2 : goIsSpace ' ' = true := by decide
    simp only [hsp2, if_true]

/-- Canonical word lists are fixed points of `fields ∘ joinSp`. -/
theorem fields_joinSp :
    ∀ {ws : List S}, (∀ w ∈ ws, w ≠ [] ∧ ∀ c ∈ w, goIsSpace c = false) →
      fields (joinSp ws) = ws := by
  intro ws
  induction ws with
  | nil =>
    intro _
    rfl
  | cons w ws ih =>
    intro h
    have hw := h w (List.mem_cons_self w ws)
    match ws with
    | [] => exact fields_word hw.1 hw.2
    | x :: xs =>
      have hrec := ih (fun w' hw' => h w' (List.mem_cons_of_mem w hw'))
      simp only [joinSp]
      rw [fields_word_append _ hw.1 hw.2, hrec]

theorem collapseSpaces_idem (s : S) :
    collapseSpaces (collapseSpaces s) = collapseSpaces s := by
  simp only [collapseSpaces]
  rw [fields_joinSp (fields_words s.length s le_rfl)]

theorem joinSp_ne_nil {ws : List S}
    (h : ∀ w ∈ ws, w ≠ [] ∧ ∀ c ∈ w, goIsSpace c = false) (hne : ws ≠ []) :
    joinSp ws ≠ [] := by
  match ws with
  | [] => exact absurd rfl hne
  | w :: ws' =>
    have hw := (h w (List.mem_cons_self w ws')).1
    match ws' with
    | [] => simpa [joinSp] using hw
    | x :: xs =>
      simp only [joinSp]
      intro hcon
      simp at hcon

theorem joinSp_head {ws : List S}
    (h : ∀ w ∈ ws, w ≠ [] ∧ ∀ c ∈ w, goIsSpace c = false) :
    ∀ d, (joinSp ws).head? = some d → goIsSpace d = false := by
  intro d hd
  match ws with
  | [] => simp [joinSp] at hd
  | w :: ws' =>
    have hw := h w (List.mem_cons_self w ws')
    match w, hw.1 with
    | c :: w', _ =>
      have hc : (joinSp ((c :: w') :: ws')).head? = some c := by
        match ws' with
        | [] => rfl
        | x :: xs => rfl
      rw [hc] at hd
      cases hd
      exact hw.2 d (List.mem_cons_self d w')

theorem joinSp_getLast {ws : List S}
    (h : ∀ w ∈ ws, w ≠ [] ∧ ∀ c ∈ w, goIsSpace c = false) :
    ∀ d, (joinSp ws).getLast? = some d → goIsSpace d = false := by
  induction ws with
  | nil =>
    intro d hd
    simp [joinSp] at hd
  | cons w ws ih =>
    intro d hd
    have hw := h w (List.mem_cons_self w ws)
    match ws with
    | [] =>
      have he : (joinSp [w]).getLast? = w.getLast? := rfl
      rw [he] at hd
      exact hw.2 d (List.mem_of_mem_getLast? hd)
    | x :: xs =>
      have hrest : ∀ w' ∈ x :: xs, w' ≠ [] ∧ ∀ c ∈ w', goIsSpace c = false :=
        fun w' hw' => h w' (List.mem_cons_of_mem w hw')
      have hne : joinSp (x :: xs) ≠ [] :=
        joinSp_ne_nil hrest (List.cons_ne_nil x xs)
      rcases he : (joinSp (x :: xs)).getLast? with _ | e
      · exact absurd (List.getLast?_eq_none_iff.mp he) hne
      · have hall : (joinSp (w :: x :: xs)).getLast? = some e := by
          show (w ++ ' ' :: joinSp (x :: xs)).getLast? = some e
          rw [List.getLast?_append]
          have h2 : (' ' :: joinSp (x :: xs)).getLast? = some e := by
            have hsplit : ' ' :: joinSp (x :: xs) = [' '] ++ joinSp (x :: xs) := rfl
            rw [hsplit, List.getLast?_append, he]
            rfl
          rw [h2]
          rfl
        rw [hall] at hd
        injection hd with hd2
        subst hd2
        exact ih hrest _ he

theorem trimLeft_eq_self {s : S}
    (h : ∀ d, s.head? = some d → goIsSpace d = false) : trimLeft s = s := by
  match s with
  | [] => rfl
  | c :: rest =>
    have hc := h c rfl
    simp only [trimLeft, List.dropWhile_cons, hc, Bool.false_eq_true, if_false]

theorem trimRight_eq_self {s : S}
    (h : ∀ d, s.getLast? = some d → goIsSpace d = false) : trimRight s = s := by
  simp only [trimRight]
  have h' : ∀ d, s.reverse.head? = some d → goIsSpace d = false := by
    intro d hd
    rw [List.head?_reverse] at hd
    exact h d hd
  match hs : s.reverse with
  | [] =>
    have : s = [] := by simpa using congrArg List.reverse hs
    simp [this]
  | c :: rest =>
    have hc := h' c (by rw [hs]; rfl)
    rw [List.dropWhile_cons]
    simp only [hc, Bool.false_eq_true, if_false]
    rw [← hs, List.reverse_reverse]

theorem trimSpace_eq_self {s : S}
    (hh : ∀ d, s.head? = some d → goIsSpace d = false)
    (hl : ∀ d, s.getLast? = some d → goIsSpace d = false) : trimSpace s = s := by
  rw [trimSpace, trimLeft_eq_self hh, trimRight_eq_self hl]

theorem trimSpace_collapseSpaces (s : S) :
    trimSpace (collapseSpaces s) = collapseSpaces s :=
  trimSpace_eq_self (joinSp_head (fields_words s.length s le_rfl))
    (joinSp_getLast (fields_words s.length s le_rfl))

theorem trimRight_isPrefix (l : S) : trimRight l <+: l := by
  have h : List.dropWhile goIsSpace l.reverse <:+ l.reverse :=
    List.dropWhile_suffix goIsSpace
  have h2 : (List.dropWhile goIsSpace l.reverse).reverse <+: l.reverse.reverse :=
    List.reverse_prefix.mpr h
  simpa [trimRight] using h2

theorem trimSpace_idem (s : S) : trimSpace (trimSpace s) = trimSpace s := by
  have h1 : ∀ d, (trimSpace s).head? = some d → goIsSpace d = false := by
    intro d hd
    obtain ⟨t, ht⟩ := trimRight_isPrefix (trimLeft s)
    have hhead : (trimLeft s).head? = some d := by
      rw [← ht]
      match hr : trimRight (trimLeft s) with
      | [] =>
        rw [trimSpace, hr] at hd
        cases hd
      | c :: rest =>
        rw [trimSpace, hr] at hd
        injection hd with hd2
        subst hd2
        rfl
    have := List.head?_dropWhile_not goIsSpace s
    simp only [trimLeft] at hhead
    rw [hhead] at this
    simpa using this
  have h2 : ∀ d, (trimSpace s).getLast? = some d → goIsSpace d = false := by
    intro d hd
    simp only [trimSpace, trimRight] at hd
    rw [← List.head?_reverse, List.reverse_reverse] at hd
    have := List.head?_dropWhile_not goIsSpace (trimLeft s).reverse
    rw [hd] at this
    simpa using this
  exact trimSpace_eq_self h1 h2

theorem map_eq_self_of {f : Char → Char} {s : S} (h : ∀ c ∈ s, f c = c) :
    s.map f = s := by
  rw [List.map_congr_left h]
  exact List.map_id' s

theorem goToUpper_eq_self {s : S} (h : ∀ c ∈ s, c.toUpper = c) : goToUpper s = s :=
  map_eq_self_of h

theorem rePunctToSpace_eq_self {s : S}
    (h : ∀ c ∈ s, (isAlnumAscii c || reIsSpace c) = true) : rePunctToSpace s = s := by
  refine map_eq_self_of ?_
  intro c hc
  rw [if_pos (h c hc)]

theorem trimSpace_goToUpper (s : S) :
    trimSpace (goToUpper s) = goToUpper (trimSpace s) := by
  have hpred : (goIsSpace ∘ Char.toUpper) = goIsSpace := by
    funext d
    simp [Function.comp, goIsSpace_toUpper]
  have hdw : ∀ (l : S), List.dropWhile goIsSpace (l.map Char.toUpper) =
      (List.dropWhile goIsSpace l).map Char.toUpper := by
    intro l
    rw [List.dropWhile_map, hpred]
  simp only [trimSpace, trimLeft, trimRight, goToUpper]
  rw [hdw s, ← List.map_reverse, hdw _, ← List.map_reverse]

/-! ### The character invariant of normalized line1/city strings -/

/-- Characters that can occur in a normalized `line1`/`city`: ASCII
alphanumerics fixed by `toUpper`, or the single space separator. -/
def canonChar (c : Char) : Prop :=
  (isAlnumAscii c = true ∧ c.toUpper = c) ∨ c = ' '

theorem canonChar_space : canonChar ' ' := Or.inr rfl

theorem canonChar_toUpper {c : Char} (h : canonChar c) : c.toUpper = c := by
  rcases h with ⟨_, h⟩ | h
  · exact h
  · subst h
    decide

theorem canonChar_keep {c : Char} (h : canonChar c) :
    (isAlnumAscii c || reIsSpace c) = true := by
  rcases h with ⟨h, _⟩ | h
  · simp [h]
  · subst h
    decide

/-- Every character of a replacement string in `suffixRepl` is an
uppercase-stable keep character. -/
theorem suffixRepl_chars :
    ∀ kv ∈ suffixRepl, ∀ d ∈ kv.2, (isAlnumAscii d || reIsSpace d) = true ∧ d.toUpper = d := by
  decide

/-- Every character of `normLine1 l` is a `canonChar`. -/
theorem normLine1_chars (l : S) : ∀ c ∈ normLine1 l, canonChar c := by
  intro c hc
  have hup : ∀ d ∈ trimSpace (goToUpper l), d.toUpper = d := by
    intro d hd
    have := mem_trimSpace hd
    simp only [goToUpper, List.mem_map] at this
    obtain ⟨e, _, he⟩ := this
    rw [← he]
    exact toUpper_idem e
  have hsu : ∀ d ∈ stripUnit (trimSpace (goToUpper l)), d.toUpper = d := by
    intro d hd
    rcases mem_stripUnit hd with hd | hd
    · exact hup d hd
    · subst hd
      decide
  have hpu : ∀ d ∈ rePunctToSpace (stripUnit (trimSpace (goToUpper l))),
      (isAlnumAscii d || reIsSpace d) = true ∧ d.toUpper = d := by
    intro d hd
    rcases mem_rePunct hd with ⟨hd, hk⟩ | hd
    · exact ⟨hk, hsu d hd⟩
    · subst hd
      exact ⟨by decide, by decide⟩
  have hab : ∀ d ∈ abbreviateSuffix (rePunctToSpace (stripUnit (trimSpace (goToUpper l)))),
      (isAlnumAscii d || reIsSpace d) = true ∧ d.toUpper = d := by
    intro d hd
    rcases mem_abbreviateSuffix hd with hd | ⟨kv, hkv, hd⟩
    · exact hpu d hd
    · exact suffixRepl_chars kv hkv d hd
  rcases mem_collapse hc with ⟨hc', hsp⟩ | hc'
  · obtain ⟨hk, hu⟩ := hab c hc'
    left
    refine ⟨?_, hu⟩
    rcases Bool.or_eq_true .. |>.mp hk with hk | hk
    · exact hk
    · rw [reIsSpace_goIsSpace hk] at hsp
      cases hsp
  · exact Or.inr hc'

/-- Every character of `normCity c` is a `canonChar`. -/
theorem normCity_chars (ci : S) : ∀ c ∈ normCity ci, canonChar c := by
  intro c hc
  have hup : ∀ d ∈ goToUpper (trimSpace ci), d.toUpper = d := by
    intro d hd
    simp only [goToUpper, List.mem_map] at hd
    obtain ⟨e, _, he⟩ := hd
    rw [← he]
    exact toUpper_idem e
  have hpu : ∀ d ∈ rePunctToSpace (goToUpper (trimSpace ci)),
      (isAlnumAscii d || reIsSpace d) = true ∧ d.toUpper = d := by
    intro d hd
    rcases mem_rePunct hd with ⟨hd, hk⟩ | hd
    · exact ⟨hk, hup d hd⟩
    · subst hd
      exact ⟨by decide, by decide⟩
  rcases mem_collapse hc with ⟨hc', hsp⟩ | hc'
  · obtain ⟨hk, hu⟩ := hpu c hc'
    left
    refine ⟨?_, hu⟩
    rcases Bool.or_eq_true .. |>.mp hk with hk | hk
    · exact hk
    · rw [reIsSpace_goIsSpace hk] at hsp
      cases hsp
  · exact Or.inr hc'

/-! ### Fixed-point lemmas for the four normalization pipelines -/

theorem goToUpper_goToUpper (s : S) : goToUpper (goToUpper s) = goToUpper s := by
  simp only [goToUpper, List.map_map]
  exact List.map_congr_left (fun c _ => toUpper_idem c)

/-- Re-normalizing a normalized line1 is the identity, provided the
normalized string is a fixed point of `stripUnit` and of
`abbreviateSuffix` (it is not always one: see the counterexample). -/
theorem normLine1_fixed {l : S}
    (h1 : stripUnit (normLine1 l) = normLine1 l)
    (h2 : abbreviateSuffix (normLine1 l) = normLine1 l) :
    normLine1 (normLine1 l) = normLine1 l := by
  have hcanon := normLine1_chars l
  have hupper : goToUpper (normLine1 l) = normLine1 l :=
    goToUpper_eq_self (fun c hc => canonChar_toUpper (hcanon c hc))
  have htrim : trimSpace (normLine1 l) = normLine1 l :=
    trimSpace_collapseSpaces _
  have hpunct : rePunctToSpace (normLine1 l) = normLine1 l :=
    rePunctToSpace_eq_self (fun c hc => canonChar_keep (hcanon c hc))
  have hcollapse : collapseSpaces (normLine1 l) = normLine1 l :=
    collapseSpaces_idem _
  show collapseSpaces (abbreviateSuffix (rePunctToSpace (stripUnit
    (trimSpace (goToUpper (normLine1 l)))))) = normLine1 l
  rw [hupper, htrim, h1, hpunct, h2, hcollapse]

/-- Re-normalizing a normalized city is always the identity. -/
theorem normCity_fixed (ci : S) : normCity (normCity ci) = normCity ci := by
  have hcanon := normCity_chars ci
  have hupper : goToUpper (normCity ci) = normCity ci :=
    goToUpper_eq_self (fun c hc => canonChar_toUpper (hcanon c hc))
  have htrim : trimSpace (normCity ci) = normCity ci :=
    trimSpace_collapseSpaces _
  have hpunct : rePunctToSpace (normCity ci) = normCity ci :=
    rePunctToSpace_eq_self (fun c hc => canonChar_keep (hcanon c hc))
  have hcollapse : collapseSpaces (normCity ci) = normCity ci :=
    collapseSpaces_idem _
  show collapseSpaces (rePunctToSpace (goToUpper (trimSpace (normCity ci)))) = normCity ci
  rw [htrim, hupper, hpunct, hcollapse]

theorem lookupTbl_mem : ∀ {t : List (S × S)} {s v : S},
    lookupTbl t s = some v → ∃ k, (k, v) ∈ t := by
  intro t
  induction t with
  | nil =>
    intro s v h
    simp [lookupTbl] at h
  | cons kv t ih =>
    intro s v h
    match kv with
    | (k, w) =>
      simp only [lookupTbl] at h
      split at h
      · injection h with h2
        subst h2
        exact ⟨k, List.mem_cons_self _ _⟩
      · obtain ⟨k', hk'⟩ := ih h
        exact ⟨k', List.mem_cons_of_mem _ hk'⟩

/-- Every stored USPS code is a two-letter uppercase-stable trimmed string. -/
theorem stateTable_vals :
    ∀ kv ∈ stateTable, trimSpace kv.2 = kv.2 ∧ goToUpper kv.2 = kv.2 ∧ kv.2.length ≤ 2 := by
  decide

/-- The `st0` of a second pass equals `st0` of the first. -/
theorem upper_trim_stable (st : S) :
    goToUpper (trimSpace (goToUpper (trimSpace st))) = goToUpper (trimSpace st) := by
  rw [trimSpace_goToUpper, trimSpace_idem, goToUpper_goToUpper]

/-- Re-normalizing a normalized state is always the identity. -/
theorem normState_fixed (st : S) : normState (normState st) = normState st := by
  by_cases hlen : (goToUpper (trimSpace st)).length > 2
  · have hst : normState st = stateAbbrev (goToUpper (trimSpace st)) := by
      simp [normState, hlen]
    rcases hlook : lookupTbl stateTable (goToUpper (trimSpace st)) with _ | v
    · have habbr : stateAbbrev (goToUpper (trimSpace st)) = goToUpper (trimSpace st) := by
        simp [stateAbbrev, hlook]
      rw [hst, habbr]
      simp only [normState, upper_trim_stable]
      rw [if_pos hlen]
      simp [stateAbbrev, hlook]
    · have habbr : stateAbbrev (goToUpper (trimSpace st)) = v := by
        simp [stateAbbrev, hlook]
      obtain ⟨k, hk⟩ := lookupTbl_mem hlook
      obtain ⟨hvt, hvu, hvl⟩ := stateTable_vals (k, v) hk
      have hvl' : v.length ≤ 2 := hvl
      rw [hst, habbr]
      have hv2 : goToUpper (trimSpace v) = v := by
        rw [hvt, hvu]
      simp only [normState, hv2]
      rw [if_neg (by omega)]
  · have hst : normState st = goToUpper (trimSpace st) := by
      simp [normState, hlen]
    rw [hst]
    have hcond : ¬ (goToUpper (trimSpace (goToUpper (trimSpace st)))).length > 2 := by
      rw [upper_trim_stable]
      omega
    simp only [normState]
    rw [if_neg hcond]
    exact upper_trim_stable st

/-! ### C3 -/

set_option maxHeartbeats 8000000

/-- C3: the claim as stated is false — `Canonicalize` is not idempotent on
every input.  At line1 `"123 MAIN ST,APT 4"` the first pass cannot see the
`APT` designator (no space before it until the comma is turned into a
space), so the normalized line1 is `"123 MAIN ST APT 4"`, and the second
pass strips `" APT ..."`, yielding `"123 MAIN ST"`. -/
theorem C3_counterexample :
    Canonicalize
      ((Canonicalize "123 MAIN ST,APT 4".data "SPRINGFIELD".data "IL".data "62704".data).line1)
      ((Canonicalize "123 MAIN ST,APT 4".data "SPRINGFIELD".data "IL".data "62704".data).city)
      ((Canonicalize "123 MAIN ST,APT 4".data "SPRINGFIELD".data "IL".data "62704".data).state)
      ((Canonicalize "123 MAIN ST,APT 4".data "SPRINGFIELD".data "IL".data "62704".data).zip) ≠
      Canonicalize "123 MAIN ST,APT 4".data "SPRINGFIELD".data "IL".data "62704".data := by
  decide

/-- C3 (amended): `Canonicalize` is idempotent on every input whose
normalized output is itself free of removable material: whenever the
normalized line1 is a fixed point of `stripUnit` and of
`abbreviateSuffix` and the normalized zip is surrounding-whitespace free
(a fixed point of `trimZIP`), re-canonicalizing the normalized output
reproduces all four normalized fields and the same property key.  The
city and state components are unconditionally stable. -/
theorem C3_canonicalize_recanon (l ci st z : S)
    (h1 : stripUnit (normLine1 l) = normLine1 l)
    (h2 : abbreviateSuffix (normLine1 l) = normLine1 l)
    (h3 : trimZIP (normZip z) = normZip z) :
    Canonicalize (normLine1 l) (normCity ci) (normState st) (normZip z) =
      Canonicalize l ci st z := by
  have hl := normLine1_fixed h1 h2
  have hc := normCity_fixed ci
  have hs := normState_fixed st
  have hz : normZip (normZip z) = normZip z := h3
  simp only [Canonicalize, hl, hc, hs, hz]

/-- Witness for C3 at the spec's own scenario
`("123 Main Street, Apt 4B", "Springfield", "Illinois", "62704")`. -/
theorem C3_witness :
    (stripUnit (normLine1 "123 Main Street, Apt 4B".data) =
      normLine1 "123 Main Street, Apt 4B".data) ∧
    Canonicalize (normLine1 "123 Main Street, Apt 4B".data)
      (normCity "Springfield".data) (normState "Illinois".data)
      (normZip "62704".data) =
      Canonicalize "123 Main Street, Apt 4B".data "Springfield".data
        "Illinois".data "62704".data :=
  ⟨by decide,
   C3_canonicalize_recanon "123 Main Street, Apt 4B".data "Springfield".data
     "Illinois".data "62704".data (by decide) (by decide) (by decide)⟩

/-! ## Quota-gated upstream client (`attom/client.go`)

The rate limiter's wait is modelled as succeeding (its deadline behavior
is out of scope of the claims).  A network exchange either fails at the
transport or yields a status code. -/

namespace Attom

/-- Errors produced by a single `quotaTransport.RoundTrip`:
`ErrDailyLimitExceeded` from the pre-flight gate, or a transport error
from the base round tripper. -/
inductive RTErr where
  | dailyLimit
  | transport
deriving DecidableEq, Repr

/-- The mutable quota fields of `attom.Client` (`dayKey`, `dayCount`). -/
structure QuotaState where
  dayKey : String
  dayCount : Nat
deriving DecidableEq, Repr

/-- A fresh client's quota state (zero values). -/
def initialQuota : QuotaState := ⟨"", 0⟩

/-- The check-and-increment tail of `Client.beforeRequest` (after the
day-change reset): fail with `ErrDailyLimitExceeded` when the counter
has reached the limit, otherwise increment the counter (pessimistic
reservation). -/
def beforeRequestGate (dailyLimit : Int) (q : QuotaState) : Except RTErr QuotaState :=
  if dailyLimit ≤ (q.dayCount : Int) then .error .dailyLimit
  else .ok ⟨q.dayKey, q.dayCount + 1⟩

/-- `Client.beforeRequest`: reset the counter on a UTC-day change, then
run the gate.  A non-positive `dailyLimit` disables the gate. -/
def beforeRequest (dailyLimit : Int) (today : String) (q : QuotaState) :
    Except RTErr QuotaState :=
  if dailyLimit ≤ 0 then .ok q
  else beforeRequestGate dailyLimit (if q.dayKey ≠ today then QuotaState.mk today 0 else q)

/-- Outcome of one network exchange seen by the base transport. -/
inductive NetOutcome where
  | err
  | status (code : Nat)
deriving DecidableEq, Repr

/-- `quotaTransport.RoundTrip`: run the pre-flight gate before any
network I/O; on gate failure no network exchange happens.  Returns the
call outcome, the new quota state, and the number of network exchanges
performed (0 or 1). -/
def roundTrip (dailyLimit : Int) (today : String) (q : QuotaState)
    (net : NetOutcome) : Except RTErr Nat × QuotaState × Nat :=
  match beforeRequest dailyLimit today q with
  | .error e => (.error e, q, 0)
  | .ok q' =>
    match net with
    | .err => (.error .transport, q', 1)
    | .status code => (.ok code, q', 1)

/-- Errors returned by go-retryablehttp's `Client.Do` (v0.7.7): the
"giving up after N attempt(s)" error, wrapping (`%w`) the last per-attempt
error when there was one.  `errors.Is(err, ErrDailyLimitExceeded)` holds
exactly when the wrapped cause is the gate's error. -/
inductive DoErr where
  | wrapped (attempts : Nat) (cause : RTErr)
  | bare (attempts : Nat)
deriving DecidableEq, Repr

/-- `errors.Is(err, ErrDailyLimitExceeded)` on a `Do` error. -/
def DoErr.isDailyLimit : DoErr → Bool
  | .wrapped _ .dailyLimit => true
  | _ => false

/-- go-retryablehttp v0.7.7 `DefaultRetryPolicy`: retry on any transport
error (the non-retryable `url.Error` patterns cannot arise here), on
HTTP 429, status 0, and 5xx except 501. -/
def defaultRetryPolicy (resp : Option Nat) (err : Option RTErr) : Bool :=
  match err with
  | some _ => true
  | none =>
    match resp with
    | some code => code == 429 || code == 0 || (500 ≤ code && code ≠ 501)
    | none => false

/-- The `CheckRetry` installed by `NewClientWithLimits`: never retry an
`ErrDailyLimitExceeded`, defer to `DefaultRetryPolicy` otherwise. -/
def checkRetry (resp : Option Nat) (err : Option RTErr) : Bool :=
  match err with
  | some .dailyLimit => false
  | _ => defaultRetryPolicy resp err

/-- The observable result of `Client.Do` (plus bookkeeping: quota state,
loop iterations, actual network exchanges). -/
structure DoResult where
  result : Except DoErr Nat
  quota : QuotaState
  attempts : Nat
  netCalls : Nat
deriving Repr

/-- The retry loop of go-retryablehttp v0.7.7 `Client.Do`: run one
round trip; consult `CheckRetry`; stop on "don't retry" (success only if
the attempt produced a response and no error); stop with the
"giving up" error when `RetryMax` is exhausted while a retry was still
wanted. `remain` is `RetryMax - i`. -/
def doAux (dailyLimit : Int) (today : String) (net : Nat → NetOutcome) :
    Nat → Nat → Nat → Nat → QuotaState → DoResult
  | remain, i, attempts, netCalls, q =>
    match roundTrip dailyLimit today q (net i) with
    | (.error e, q', n) =>
      if checkRetry none (some e) then
        match remain with
        | remain' + 1 => doAux dailyLimit today net remain' (i + 1) (attempts + 1)
            (netCalls + n) q'
        | 0 => ⟨.error (.wrapped (attempts + 1) e), q', attempts + 1, netCalls + n⟩
      else
        ⟨.error (.wrapped (attempts + 1) e), q', attempts + 1, netCalls + n⟩
    | (.ok code, q', n) =>
      if checkRetry (some code) none then
        match remain with
        | remain' + 1 => doAux dailyLimit today net remain' (i + 1) (attempts + 1)
            (netCalls + n) q'
        | 0 => ⟨.error (.bare (attempts + 1)), q', attempts + 1, netCalls + n⟩
      else
        ⟨.ok code, q', attempts + 1, netCalls + n⟩

/-- `Client.Do` through the retryablehttp client configured by
`NewClientWithLimits` (`RetryMax` retries). -/
def clientDo (dailyLimit : Int) (retryMax : Nat) (today : String)
    (net : Nat → NetOutcome) (q : QuotaState) : DoResult :=
  doAux dailyLimit today net retryMax 0 0 0 q

/-- Errors surfaced by `Client.SearchByPostal` /
`Client.SearchListingsByPostal`. -/
inductive SearchErr where
  | fromDo (e : DoErr)
  | dailyLimitFromStatus
  | rapidAPIError (status : Nat)
deriving DecidableEq, Repr

/-- `errors.Is(err, ErrDailyLimitExceeded)` on a search error. -/
def SearchErr.isDailyLimit : SearchErr → Bool
  | .fromDo e => e.isDailyLimit
  | .dailyLimitFromStatus => true
  | _ => false

/-- The observable result of a postal search call. -/
structure SearchResult where
  outcome : Except SearchErr Nat
  quota : QuotaState
  attempts : Nat
  netCalls : Nat
deriving Repr

/-- `Client.SearchByPostal` (identically `Client.SearchListingsByPostal`):
run `Do`; a returned error propagates; a 429 response maps to
`ErrDailyLimitExceeded`; other `>= 400` statuses map to the
"rapidapi error" ; otherwise the body is returned (the successful status
stands in for the body). -/
def SearchByPostal (dailyLimit : Int) (retryMax : Nat) (today : String)
    (net : Nat → NetOutcome) (q : QuotaState) : SearchResult :=
  let r := clientDo dailyLimit retryMax today net q
  match r.result with
  | .error e => ⟨.error (.fromDo e), r.quota, r.attempts, r.netCalls⟩
  | .ok code =>
    if code = 429 then ⟨.error .dailyLimitFromStatus, r.quota, r.attempts, r.netCalls⟩
    else if 400 ≤ code then ⟨.error (.rapidAPIError code), r.quota, r.attempts, r.netCalls⟩
    else ⟨.ok code, r.quota, r.attempts, r.netCalls⟩

theorem beforeRequest_deny {dl : Int} {today : String} {q : QuotaState}
    (hdl : 0 < dl) (hk : q.dayKey = today) (hc : dl ≤ (q.dayCount : Int)) :
    beforeRequest dl today q = .error .dailyLimit := by
  have hk' : ¬ q.dayKey ≠ today := by simpa using hk
  simp only [beforeRequest, hk', ite_false, if_false, if_neg (show ¬ dl ≤ 0 by omega)]
  simp only [beforeRequestGate, hc, ite_true, if_pos]

theorem beforeRequest_allow {dl : Int} {today : String} {q : QuotaState}
    (hk : q.dayKey = today) (hc : (q.dayCount : Int) < dl) :
    beforeRequest dl today q = .ok ⟨today, q.dayCount + 1⟩ := by
  have hdl : ¬ dl ≤ 0 := by
    have h0 : (0 : Int) ≤ (q.dayCount : Int) := Int.ofNat_nonneg _
    omega
  have hk' : ¬ q.dayKey ≠ today := by simpa using hk
  simp only [beforeRequest, hk', ite_false, if_false, if_neg hdl]
  simp only [beforeRequestGate]
  rw [if_neg (by omega), hk]

theorem beforeRequest_newDay {dl : Int} {today : String} {q : QuotaState}
    (hdl : 0 < dl) (hk : q.dayKey ≠ today) :
    beforeRequest dl today q = .ok ⟨today, 1⟩ := by
  simp only [beforeRequest]
  rw [if_neg (show ¬ dl ≤ 0 by omega), if_pos hk]
  simp only [beforeRequestGate]
  rw [if_neg (by push_cast; omega)]

/-- C1: every outbound call runs the pre-flight gate before any network
I/O.  With a positive configured daily limit: (i) when the per-UTC-day
counter has reached the limit the call fails with `ErrDailyLimitExceeded`,
performs zero network exchanges and leaves the counter unchanged;
(ii) otherwise the counter is incremented before the request is sent —
one network exchange happens and the budget is consumed no matter how
the network exchange turns out; (iii) on the first call of a new UTC day
the counter resets to zero (and is then incremented to 1 for the call
itself); (iv) with `dailyLimit = 2`, of three same-day calls the first
two each reach the network and the third fails pre-network with the
quota error. -/
theorem C1_quota_gate (dl : Int) (today : String) (q : QuotaState)
    (net : NetOutcome) (hdl : 0 < dl) :
    (q.dayKey = today → dl ≤ (q.dayCount : Int) →
      roundTrip dl today q net = (.error .dailyLimit, q, 0)) ∧
    (q.dayKey = today → (q.dayCount : Int) < dl →
      (roundTrip dl today q net).2 = (⟨today, q.dayCount + 1⟩, 1)) ∧
    (q.dayKey ≠ today → (roundTrip dl today q net).2 = (⟨today, 1⟩, 1)) ∧
    ((roundTrip 2 today ⟨today, 0⟩ net).2 = (⟨today, 1⟩, 1) ∧
     (roundTrip 2 today ⟨today, 1⟩ net).2 = (⟨today, 2⟩, 1) ∧
     roundTrip 2 today ⟨today, 2⟩ net = (.error .dailyLimit, ⟨today, 2⟩, 0)) := by
  refine ⟨?_, ?_, ?_, ?_, ?_, ?_⟩
  · intro h1 h2
    simp only [roundTrip, beforeRequest_deny hdl h1 h2]
  · intro h1 h2
    simp only [roundTrip, beforeRequest_allow h1 h2]
    cases net <;> rfl
  · intro h1
    simp only [roundTrip, beforeRequest_newDay hdl h1]
    cases net <;> rfl
  · have hb := @beforeRequest_allow 2 today ⟨today, 0⟩ rfl
      (by norm_num)
    simp only [roundTrip, hb]
    cases net <;> rfl
  · have hb := @beforeRequest_allow 2 today ⟨today, 1⟩ rfl
      (by norm_num)
    simp only [roundTrip, hb]
    cases net <;> rfl
  · have hb := @beforeRequest_deny 2 today ⟨today, 2⟩
      (by omega) rfl (by norm_num)
    simp only [roundTrip, hb]

/-- Witness for C1 at concrete inputs. -/
theorem C1_witness :
    ((0 : Int) < 2) ∧
    ((QuotaState.mk "2026-10-11" 2).dayKey = "2026-10-11" →
      (2 : Int) ≤ ((QuotaState.mk "2026-10-11" 2).dayCount : Int) →
      roundTrip 2 "2026-10-11" ⟨"2026-10-11", 2⟩ (.status 200) =
        (.error .dailyLimit, ⟨"2026-10-11", 2⟩, 0)) :=
  ⟨by decide,
   (C1_quota_gate 2 "2026-10-11" ⟨"2026-10-11", 2⟩ (.status 200) (by decide)).1⟩

/-- C6: a provider-side HTTP 429 response is retried by the inherited
`DefaultRetryPolicy` (one initial attempt plus `RetryMax = 3` retries,
each passing the quota gate and consuming daily budget), and when the
429 persists, `Do` returns the generic "giving up after 4 attempt(s)"
error with a nil response, so `SearchByPostal`'s 429-to-
`ErrDailyLimitExceeded` mapping never fires and the surfaced error does
not satisfy `errors.Is(err, ErrDailyLimitExceeded)`.  Only the gate's
own `ErrDailyLimitExceeded` is recognized by the custom `CheckRetry`
and is never retried (second half: quota already exhausted — one loop
iteration, zero network exchanges). -/
theorem C6_429_retried_not_quota :
    ((SearchByPostal 20000 3 "2026-10-11" (fun _ => .status 429) initialQuota).netCalls = 4 ∧
     (SearchByPostal 20000 3 "2026-10-11" (fun _ => .status 429) initialQuota).attempts = 4 ∧
     (SearchByPostal 20000 3 "2026-10-11" (fun _ => .status 429) initialQuota).outcome =
       .error (.fromDo (.bare 4)) ∧
     SearchErr.isDailyLimit (.fromDo (.bare 4)) = false ∧
     (SearchByPostal 20000 3 "2026-10-11" (fun _ => .status 429) initialQuota).quota.dayCount = 4) ∧
    ((SearchByPostal 2 3 "2026-10-11" (fun _ => .status 429) ⟨"2026-10-11", 2⟩).netCalls = 0 ∧
     (SearchByPostal 2 3 "2026-10-11" (fun _ => .status 429) ⟨"2026-10-11", 2⟩).attempts = 1 ∧
     (SearchByPostal 2 3 "2026-10-11" (fun _ => .status 429) ⟨"2026-10-11", 2⟩).outcome =
       .error (.fromDo (.wrapped 1 .dailyLimit)) ∧
     SearchErr.isDailyLimit (.fromDo (.wrapped 1 .dailyLimit)) = true) :=
  ⟨⟨rfl, rfl, rfl, rfl, rfl⟩, ⟨rfl, rfl, rfl, rfl⟩⟩

end Attom

/-! ## Revalidation dispatcher (`internal/refresh`, `part_001`) -/

namespace Refresh

/-- Process-local state of a `Refresher` plus the multiset of jobs
currently being executed by workers.  `inFly` models the `sync.Map`
key set, `queue` the buffered channel of capacity `cap`. -/
structure RState where
  inFly : List S
  queue : List S
  executing : List S
  cap : Nat
deriving DecidableEq, Repr

/-- `Refresher.Enqueue`: a no-op when the key is already in flight
(`LoadOrStore` reports it exists); otherwise the key is inserted into
the in-flight set and a non-blocking send is attempted — when the
channel is saturated the job is dropped and the in-flight entry deleted
again, so the net state is unchanged. -/
def Enqueue (s : RState) (k : S) : RState :=
  if k ∈ s.inFly then s
  else if s.queue.length < s.cap then
    { s with inFly := k :: s.inFly, queue := s.queue ++ [k] }
  else s

/-- A worker receiving the next job from the channel
(`for j := range r.ch`). -/
def startJob (s : RState) : RState :=
  match s.queue with
  | [] => s
  | j :: rest => { s with queue := rest, executing := s.executing ++ [j] }

/-- A worker finishing the job for key `k`; the deferred
`r.inFly.Delete(j.PropertyKey)` removes the in-flight entry regardless
of the outcome `ok`. -/
def finishJob (s : RState) (k : S) (_ok : Bool) : RState :=
  { s with executing := s.executing.erase k, inFly := s.inFly.erase k }

/-- The events the dispatcher state reacts to. -/
inductive ROp where
  | enqueue (k : S)
  | start
  | finish (k : S) (ok : Bool)

/-- One scheduler step; a worker can only finish a key it is executing. -/
def step (s : RState) : ROp → RState
  | .enqueue k => Enqueue s k
  | .start => startJob s
  | .finish k ok => if k ∈ s.executing then finishJob s k ok else s

/-- `refresh.New`: empty queue, empty in-flight set. -/
def initR (cap : Nat) : RState := ⟨[], [], [], cap⟩

def applyOps (s : RState) : List ROp → RState
  | [] => s
  | op :: ops => applyOps (step s op) ops

/-- The dispatcher invariant: at most one queued-or-executing job per
key, every queued or executing key is in flight, and the in-flight set
has no duplicates. -/
def Inv (s : RState) : Prop :=
  (∀ k, s.queue.count k + s.executing.count k ≤ 1) ∧
  (∀ k ∈ s.queue, k ∈ s.inFly) ∧
  (∀ k ∈ s.executing, k ∈ s.inFly) ∧
  s.inFly.Nodup

theorem Inv_init (cap : Nat) : Inv (initR cap) := by
  refine ⟨?_, ?_, ?_, ?_⟩ <;> simp [initR]

theorem Inv_step {s : RState} (h : Inv s) (op : ROp) : Inv (step s op) := by
  obtain ⟨h1, h2, h3, h4⟩ := h
  match op with
  | .enqueue k =>
    simp only [step, Enqueue]
    split
    · exact ⟨h1, h2, h3, h4⟩
    · rename_i hnotin
      split
      · refine ⟨?_, ?_, ?_, ?_⟩
        · intro k'
          have hc := h1 k'
          simp only [List.count_append, List.count_singleton]
          by_cases hk : k = k'
          · subst hk
            have hq : s.queue.count k = 0 := by
              rw [List.count_eq_zero]
              intro hmem
              exact hnotin (h2 k hmem)
            have he : s.executing.count k = 0 := by
              rw [List.count_eq_zero]
              intro hmem
              exact hnotin (h3 k hmem)
            simp [hq, he]
          · have hbeq : (k == k') = false := by
              simp [hk]
            simp only [hbeq, Bool.false_eq_true, if_false]
            omega
        · intro k' hk'
          simp only [List.mem_append, List.mem_singleton] at hk'
          rcases hk' with hk' | hk'
          · exact List.mem_cons_of_mem k (h2 k' hk')
          · subst hk'
            exact List.mem_cons_self _ _
        · intro k' hk'
          exact List.mem_cons_of_mem k (h3 k' hk')
        · exact List.Nodup.cons hnotin h4
      · exact ⟨h1, h2, h3, h4⟩
  | .start =>
    rcases hq : s.queue with _ | ⟨j, rest⟩
    · have : startJob s = s := by
        simp [startJob, hq]
      simp only [step, this]
      exact ⟨h1, h2, h3, h4⟩
    · simp only [step, startJob, hq]
      refine ⟨?_, ?_, ?_, h4⟩
      · intro k'
        have hc := h1 k'
        rw [hq] at hc
        simp only [List.count_cons, List.count_append, List.count_singleton,
          List.count_nil] at hc ⊢
        omega
      · intro k' hk'
        exact h2 k' (by rw [hq]; exact List.mem_cons_of_mem _ hk')
      · intro k' hk'
        simp only [List.mem_append, List.mem_singleton] at hk'
        rcases hk' with hk' | hk'
        · exact h3 k' hk'
        · subst hk'
          exact h2 _ (by rw [hq]; exact List.mem_cons_self _ _)
  | .finish k ok =>
    simp only [step]
    split
    · rename_i hexec
      refine ⟨?_, ?_, ?_, ?_⟩
      · intro k'
        have hc := h1 k'
        have he : (s.executing.erase k).count k' ≤ s.executing.count k' :=
          (List.erase_sublist k s.executing).count_le k'
        simp only [finishJob]
        omega
      · intro k' hk'
        simp only [finishJob] at hk' ⊢
        have hk'mem : k' ∈ s.inFly := h2 k' hk'
        have hne : k' ≠ k := by
          intro hcon
          subst hcon
          have hg1 := h1 k'
          have hx1 : 1 ≤ s.executing.count k' := List.one_le_count_iff.mpr hexec
          have hx2 : 1 ≤ s.queue.count k' := List.one_le_count_iff.mpr hk'
          omega
        exact (List.Nodup.mem_erase_iff h4).mpr ⟨hne, hk'mem⟩
      · intro k' hk'
        simp only [finishJob] at hk' ⊢
        have hk'exec : k' ∈ s.executing := (List.erase_sublist k s.executing).subset hk'
        have hk'mem : k' ∈ s.inFly := h3 k' hk'exec
        have hne : k' ≠ k := by
          intro hcon
          subst hcon
          have hcount := h1 k'
          have hnm : k' ∉ s.executing.erase k' := by
            intro hmem
            have hpos := List.count_pos_iff.mpr hmem
            rw [List.count_erase_self] at hpos
            omega
          exact hnm hk'
        exact (List.Nodup.mem_erase_iff h4).mpr ⟨hne, hk'mem⟩
      · exact List.Nodup.erase k h4
    · exact ⟨h1, h2, h3, h4⟩

theorem Inv_applyOps {s : RState} (h : Inv s) :
    ∀ (ops : List ROp), Inv (applyOps s ops) := by
  intro ops
  induction ops generalizing s with
  | nil => exact h
  | cons op ops ih => exact ih (Inv_step h op)

/-- C5: the dispatcher keeps at most one concurrent refresh per key:
(i) `Enqueue` is a no-op when the key is already in flight; (ii) when
the bounded queue is saturated the job is dropped and the in-flight
entry is removed at once — the state is unchanged; (iii) when a worker
finishes the refresh action for a key, the in-flight entry is gone
regardless of the outcome (given the state invariant); (iv) the
invariant — at most one queued-or-executing job per key, queued and
executing keys always in flight — holds along every event trace from a
fresh dispatcher. -/
theorem C5_refresher (s : RState) (k : S) (ok : Bool) (cap : Nat) (ops : List ROp) :
    (k ∈ s.inFly → Enqueue s k = s) ∧
    (k ∉ s.inFly → ¬ s.queue.length < s.cap → Enqueue s k = s) ∧
    (Inv s → k ∉ (finishJob s k ok).inFly) ∧
    Inv (applyOps (initR cap) ops) := by
  refine ⟨?_, ?_, ?_, Inv_applyOps (Inv_init cap) ops⟩
  · intro h
    simp [Enqueue, h]
  · intro h1 h2
    simp [Enqueue, h1, h2]
  · intro hinv
    simp only [finishJob]
    intro hmem
    exact ((List.Nodup.mem_erase_iff hinv.2.2.2).mp hmem).1 rfl

/-- Witness for C5 at concrete inputs. -/
theorem C5_witness :
    (("k".data ∈ (RState.mk ["k".data] [] ["k".data] 4).inFly →
      Enqueue ⟨["k".data], [], ["k".data], 4⟩ "k".data = ⟨["k".data], [], ["k".data], 4⟩) ∧
     ("k".data ∉ (RState.mk ["k".data] [] ["k".data] 4).inFly →
      ¬ (RState.mk ["k".data] [] ["k".data] 4).queue.length < 4 →
      Enqueue ⟨["k".data], [], ["k".data], 4⟩ "k".data = ⟨["k".data], [], ["k".data], 4⟩) ∧
     (Inv ⟨["k".data], [], ["k".data], 4⟩ →
      "k".data ∉ (finishJob ⟨["k".data], [], ["k".data], 4⟩ "k".data true).inFly) ∧
     Inv (applyOps (initR 4) [.enqueue "k".data, .start, .finish "k".data false])) ∧
    "k".data ∈ (RState.mk ["k".data] [] ["k".data] 4).inFly :=
  ⟨C5_refresher ⟨["k".data], [], ["k".data], 4⟩ "k".data true 4
    [.enqueue "k".data, .start, .finish "k".data false],
   by decide⟩

end Refresh

/-! ## Resolution cache engine (`http/v1`, `part_005`; `Refetch` closure
from `part_003`)

TTL-bearing Redis entries are modelled by presence in the state: an
expired entry is simply absent.  The background refresh goroutine's body
runs detached; a `Refetch` call is modelled by counting the spawned
goroutine and performing the `Refresher.Enqueue`. -/

namespace HttpV1

/-- The inbound resolve request body. -/
structure ResolveRequest where
  address : S
  city : S
  state : S
  zip : S
deriving DecidableEq, Repr

/-- A provider candidate as far as matching is concerned. -/
structure Card where
  address : S
  city : S
  state : S
  zip : S
deriving DecidableEq, Repr

/-- Outcome of the one upstream ZIP search a cold miss performs:
`SearchByPostal` error, `MapSearchPayloadToCards` error, or the mapped
candidate list. -/
inductive FetchOutcome where
  | fetchErr
  | mapErr
  | cards (cs : List Card)
deriving DecidableEq, Repr

/-- `fetchResolveRaw`: on any error report not-found (`false`);
otherwise canonicalize each candidate and accept the first whose
canonical `(line1, city, state)` triple matches the query's.  Returns
the matched card, `none` meaning `found == false`. -/
def fetchResolveRaw (o : FetchOutcome) (line1 city state zip : S) : Option Card :=
  match o with
  | .fetchErr => none
  | .mapErr => none
  | .cards cs =>
    let q := Canonicalize line1 city state zip
    cs.find? (fun card =>
      let r := Canonicalize card.address card.city card.state card.zip
      r.line1 == q.line1 && r.city == q.city && r.state == q.state)

/-- The fields of `ResolveDeps` the claims depend on: whether a
`Refetch` callback is installed, and the stale-after tuning. -/
structure ResolveDeps where
  hasRefetch : Bool
  staleAfterCfg : Int
deriving DecidableEq, Repr

/-- `maxDur` from `part_005`. -/
def maxDur (a b : Int) : Int := if a > 0 then a else b

/-- The state visible to `resolve`: the Redis keys it touches, the
process `Refresher`, and the count of background-refresh goroutines the
`Refetch` closure has spawned. -/
structure SysState where
  missKeys : List S
  cacheKeys : List (S × Int)
  lockKeys : List S
  refetchSpawns : Nat
  refr : Refresh.RState
deriving DecidableEq, Repr

/-- Assoc lookup standing in for `Redis.Get` on `prop:pk:` keys; the
stored value is the envelope's `staleAfter` instant. -/
def lookupCache : List (S × Int) → S → Option Int
  | [], _ => none
  | (k, v) :: rest, key => if key = k then some v else lookupCache rest key

def missKeyOf (body : ResolveRequest) : S :=
  "prop:miss:".data ++ (Canonicalize body.address body.city body.state body.zip).key

def cacheKeyOf (body : ResolveRequest) : S :=
  "prop:pk:".data ++ (Canonicalize body.address body.city body.state body.zip).key

def lockKeyOf (body : ResolveRequest) : S :=
  "prop:lock:".data ++ (Canonicalize body.address body.city body.state body.zip).key

/-- The HTTP responses `resolve` can produce. -/
inductive Resp where
  | badRequest
  | notFoundCooldown
  | cacheHit (stale : Bool)
  | inProgress
  | fresh
  | notFound
deriving DecidableEq, Repr

/-- The `Refetch` closure wired in `main` (`part_003`): it spawns a
goroutine that performs the actual refresh (counted in
`refetchSpawns` — the goroutine is launched unconditionally on every
call), and then calls `ref.Enqueue` on the generic refresher whose `Do`
only touches a marker key. -/
def Refetch (s : SysState) (pk : S) : SysState :=
  { s with refetchSpawns := s.refetchSpawns + 1,
           refr := Refresh.Enqueue s.refr pk }

/-- `resolve` from `part_005`: validation, negative-cache check, cache
envelope check with stale-triggered `Refetch`, stampede lock, cold
fetch, and negative-cache write on not-found. -/
def resolve (d : ResolveDeps) (now : Int) (o : FetchOutcome)
    (body : ResolveRequest) (s : SysState) : Resp × SysState :=
  if body.address = [] ∨ body.city = [] ∨ body.state = [] ∨ body.zip = [] then
    (.badRequest, s)
  else
    let r := Canonicalize body.address body.city body.state body.zip
    if missKeyOf body ∈ s.missKeys then (.notFoundCooldown, s)
    else
      match lookupCache s.cacheKeys (cacheKeyOf body) with
      | some staleAfter =>
        let stale := staleAfter < now
        if stale ∧ d.hasRefetch then (.cacheHit stale, Refetch s r.key)
        else (.cacheHit stale, s)
      | none =>
        if lockKeyOf body ∈ s.lockKeys then (.inProgress, s)
        else
          let s1 := { s with lockKeys := lockKeyOf body :: s.lockKeys }
          match fetchResolveRaw o r.line1 r.city r.state r.zip with
          | none => (.notFound, { s1 with missKeys := missKeyOf body :: s1.missKeys })
          | some _ =>
            (.fresh, { s1 with
              cacheKeys := (cacheKeyOf body, now + maxDur d.staleAfterCfg 300) ::
                s1.cacheKeys })

/-- A concrete resolve request used in the demonstration theorems. -/
def demoBody : ResolveRequest :=
  ⟨"1 Main St".data, "Springfield".data, "IL".data, "62704".data⟩

/-- The property key of `demoBody`. -/
def demoKey : S :=
  (Canonicalize demoBody.address demoBody.city demoBody.state demoBody.zip).key

/-- A state holding a stale cache envelope for `demoBody`
(staleAfter = 500 < now = 1000), empty refresher of capacity 8. -/
def demoState : SysState :=
  ⟨[], [("prop:pk:".data ++ demoKey, 500)], [], 0, Refresh.initR 8⟩

/-- Deps with a `Refetch` installed. -/
def demoDeps : ResolveDeps := ⟨true, 300⟩

/-- C2: a stale hit serves the cached data immediately with
`stale = true`, but the background refresh is NOT deduplicated: every
stale-hit resolve runs `d.Refetch`, whose closure unconditionally
spawns its own refresh goroutine before calling the deduplicating
`Refresher.Enqueue` (whose job body only writes a touch marker).  Two
identical stale-hit resolves therefore spawn two refresh goroutines,
while the `Refresher` holds exactly one deduplicated job. -/
theorem C2_stale_refresh_not_deduped :
    (resolve demoDeps 1000 (.cards []) demoBody demoState).1 = .cacheHit true ∧
    (resolve demoDeps 1000 (.cards [])
      demoBody (resolve demoDeps 1000 (.cards []) demoBody demoState).2).1 =
      .cacheHit true ∧
    (resolve demoDeps 1000 (.cards [])
      demoBody (resolve demoDeps 1000 (.cards []) demoBody demoState).2).2.refetchSpawns = 2 ∧
    (resolve demoDeps 1000 (.cards [])
      demoBody (resolve demoDeps 1000 (.cards []) demoBody demoState).2).2.refr.queue =
      [demoKey] ∧
    (resolve demoDeps 1000 (.cards [])
      demoBody (resolve demoDeps 1000 (.cards []) demoBody demoState).2).2.refr.inFly =
      [demoKey] := by
  refine ⟨?_, ?_, ?_, ?_, ?_⟩ <;> decide

/-- C4: the claim as stated is false — a cold-miss resolve whose
upstream fetch fails with an error still writes the
`prop:miss:` marker (`fetchResolveRaw` collapses errors into
`found == false`, and `resolve` negative-caches every not-found). -/
theorem C4_counterexample :
    (resolve demoDeps 1000 .fetchErr demoBody
      ⟨[], [], [], 0, Refresh.initR 8⟩).1 = .notFound ∧
    missKeyOf demoBody ∈
      (resolve demoDeps 1000 .fetchErr demoBody
        ⟨[], [], [], 0, Refresh.initR 8⟩).2.missKeys := by
  refine ⟨?_, ?_⟩ <;> decide

/-- C4 (amended): on a lock-acquiring cold miss the
`NegativeCacheMarker` is created exactly when `fetchResolveRaw` reports
no usable match — which includes a genuine empty lookup, but also an
upstream fetch error and a payload-mapping error; an unsuccessful cold
fetch of any kind negative-caches the key. -/
theorem C4_negative_cache_on_unfound (d : ResolveDeps) (now : Int)
    (o : FetchOutcome) (body : ResolveRequest) (s : SysState)
    (hne : ¬ (body.address = [] ∨ body.city = [] ∨ body.state = [] ∨ body.zip = []))
    (hmiss : missKeyOf body ∉ s.missKeys)
    (hcache : lookupCache s.cacheKeys (cacheKeyOf body) = none)
    (hlock : lockKeyOf body ∉ s.lockKeys) :
    (missKeyOf body ∈ (resolve d now o body s).2.missKeys ↔
      fetchResolveRaw o
        (Canonicalize body.address body.city body.state body.zip).line1
        (Canonicalize body.address body.city body.state body.zip).city
        (Canonicalize body.address body.city body.state body.zip).state
        (Canonicalize body.address body.city body.state body.zip).zip = none) ∧
    ((resolve d now o body s).1 = .notFound ∨ (resolve d now o body s).1 = .fresh) := by
  simp only [resolve, if_neg hne, if_neg hmiss, hcache, if_neg hlock]
  rcases hf : fetchResolveRaw o
      (Canonicalize body.address body.city body.state body.zip).line1
      (Canonicalize body.address body.city body.state body.zip).city
      (Canonicalize body.address body.city body.state body.zip).state
      (Canonicalize body.address body.city body.state body.zip).zip with _ | card
  · simp [hf, List.mem_cons]
  · simp [hf, hmiss]

/-- Witness for C4's amended theorem at a concrete cold-miss state with
a failing upstream fetch. -/
theorem C4_witness :
    (¬ (demoBody.address = [] ∨ demoBody.city = [] ∨ demoBody.state = [] ∨
        demoBody.zip = [])) ∧
    ((missKeyOf demoBody ∈
        (resolve demoDeps 1000 .fetchErr demoBody
          ⟨[], [], [], 0, Refresh.initR 8⟩).2.missKeys ↔
      fetchResolveRaw .fetchErr
        (Canonicalize demoBody.address demoBody.city demoBody.state demoBody.zip).line1
        (Canonicalize demoBody.address demoBody.city demoBody.state demoBody.zip).city
        (Canonicalize demoBody.address demoBody.city demoBody.state demoBody.zip).state
        (Canonicalize demoBody.address demoBody.city demoBody.state demoBody.zip).zip =
          none) ∧
     ((resolve demoDeps 1000 .fetchErr demoBody
        ⟨[], [], [], 0, Refresh.initR 8⟩).1 = .notFound ∨
      (resolve demoDeps 1000 .fetchErr demoBody
        ⟨[], [], [], 0, Refresh.initR 8⟩).1 = .fresh)) :=
  ⟨by decide,
   C4_negative_cache_on_unfound demoDeps 1000 .fetchErr demoBody
     ⟨[], [], [], 0, Refresh.initR 8⟩ (by decide) (by decide) (by decide) (by decide)⟩

end HttpV1

/-! ## Bulk hydration pipeline (`internal/hydrator/bulk_job.go`) -/

namespace Hydrator

/-- Effective page size of `BulkJob.ingestZip` (default 50 when the
configured value is non-positive). -/
def effPageSize (ps : Int) : Nat := if ps ≤ 0 then 50 else ps.toNat

/-- Effective maximum pages per zip (default 5). -/
def effMaxPages (mp : Int) : Nat := if mp ≤ 0 then 5 else mp.toNat

/-- The pagination loop of `BulkJob.ingestZip` for one
`(zip, propertyType)` pair, abstracted over the per-page result counts
`counts` (fetch and mapping are modelled as succeeding — errors return
early and fetch no further pages either).  `fuel` is the number of pages
still allowed; the result lists the page numbers fetched, in order:
after fetching a page the loop breaks when the page has zero results,
and later (after persisting) when it has fewer than `pageSize`. -/
def ingestPagesAux (pageSize : Nat) (counts : Nat → Nat) : Nat → Nat → List Nat
  | _, 0 => []
  | page, fuel + 1 =>
    if counts page = 0 then [page]
    else if counts page < pageSize then [page]
    else page :: ingestPagesAux pageSize counts (page + 1) fuel

/-- The page numbers `ingestZip` fetches for one pair. -/
def ingestZipPages (cfgPageSize cfgMaxPages : Int) (counts : Nat → Nat) : List Nat :=
  ingestPagesAux (effPageSize cfgPageSize) counts 1 (effMaxPages cfgMaxPages)

theorem ingestPagesAux_spec (pageSize : Nat) (counts : Nat → Nat) :
    ∀ (fuel start : Nat),
      ingestPagesAux pageSize counts start fuel =
        List.range' start (ingestPagesAux pageSize counts start fuel).length ∧
      (ingestPagesAux pageSize counts start fuel).length ≤ fuel ∧
      (∀ p ∈ ingestPagesAux pageSize counts start fuel,
        (counts p = 0 ∨ counts p < pageSize) →
        ∀ q ∈ ingestPagesAux pageSize counts start fuel, q ≤ p) := by
  intro fuel
  induction fuel with
  | zero =>
    intro start
    refine ⟨rfl, le_rfl, ?_⟩
    intro p hp
    simp [ingestPagesAux] at hp
  | succ fuel ih =>
    intro start
    by_cases h0 : counts start = 0
    · have he : ingestPagesAux pageSize counts start (fuel + 1) = [start] := by
        simp [ingestPagesAux, h0]
      rw [he]
      refine ⟨rfl, by simp, ?_⟩
      intro p hp _ q hq
      simp only [List.mem_singleton] at hp hq
      omega
    · by_cases h1 : counts start < pageSize
      · have he : ingestPagesAux pageSize counts start (fuel + 1) = [start] := by
          simp [ingestPagesAux, h0, h1]
        rw [he]
        refine ⟨rfl, by simp, ?_⟩
        intro p hp _ q hq
        simp only [List.mem_singleton] at hp hq
        omega
      · have he : ingestPagesAux pageSize counts start (fuel + 1) =
            start :: ingestPagesAux pageSize counts (start + 1) fuel := by
          simp [ingestPagesAux, h0, h1]
        obtain ⟨ihr, ihl, ihstop⟩ := ih (start + 1)
        rw [he]
        refine ⟨?_, by simpa using ihl, ?_⟩
        · simp only [List.length_cons, List.range'_succ]
          rw [← ihr]
        · intro p hp hps q hq
          rcases List.mem_cons.mp hp with hp | hp
          · subst hp
            rcases hps with hps | hps
            · exact absurd hps h0
            · exact absurd hps h1
          · rcases List.mem_cons.mp hq with hq | hq
            · have hmem : p ∈ List.range' (start + 1)
                  (ingestPagesAux pageSize counts (start + 1) fuel).length := by
                rw [← ihr]
                exact hp
              obtain ⟨i, _, hpi⟩ := List.mem_range'.mp hmem
              omega
            · exact ihstop p hp hps q hq

/-- C7: for each `(zip, propertyType)` pair the bulk pipeline fetches
pages sequentially starting at 1, never more than the effective
`maxPages`; and as soon as a page returns zero results or fewer results
than the effective `pageSize`, that page is the last one fetched — every
fetched page is `≤` it. -/
theorem C7_bulk_pagination (cfgPageSize cfgMaxPages : Int) (counts : Nat → Nat) :
    ingestZipPages cfgPageSize cfgMaxPages counts =
      List.range' 1 (ingestZipPages cfgPageSize cfgMaxPages counts).length ∧
    (ingestZipPages cfgPageSize cfgMaxPages counts).length ≤ effMaxPages cfgMaxPages ∧
    (∀ p ∈ ingestZipPages cfgPageSize cfgMaxPages counts,
      (counts p = 0 ∨ counts p < effPageSize cfgPageSize) →
      ∀ q ∈ ingestZipPages cfgPageSize cfgMaxPages counts, q ≤ p) :=
  ingestPagesAux_spec (effPageSize cfgPageSize) counts
    (effMaxPages cfgMaxPages) 1

end Hydrator

/-! ## Persistence upsert (`internal/store` in `env.go`, the `ingest_*`
variant that `bulk_job.go` uses; `part_000` is its earlier copy)

UUIDs are modelled by a `nextId` counter; `now()` by an explicit
instant; `interval '5 minutes'` by 300. -/

namespace Store

/-- `store.ListingPhotoInput`. -/
structure ListingPhotoInput where
  href : String
  description : String
  title : String
  kind : String
  mediaType : String
  tags : List String
  position : Int
deriving DecidableEq, Repr

/-- `store.UpsertInput` (numeric `sql.Null*` as `Option`). -/
structure UpsertInput where
  propertyKey : String
  address1 : String
  city : String
  state : String
  zip : String
  lat : Option ℚ
  lon : Option ℚ
  provider : String
  sourceId : String
  listingId : Option String
  status : String
  listPrice : Option ℚ
  beds : Option Int
  baths : Option ℚ
  sqft : Option Int
  photos : List ListingPhotoInput
  endpoint : String
  externalId : String
  payload : String
deriving DecidableEq, Repr

/-- A row of `ingest_properties` (the columns the claims touch). -/
structure PropertyRow where
  id : Nat
  propertyKey : String
  address1 : String
  city : String
  state : String
  zip : String
  lat : Option ℚ
  lon : Option ℚ
  lastFetchAt : Int
  staleAfter : Int
deriving DecidableEq, Repr

/-- A row of `ingest_listings`. -/
structure ListingRow where
  id : Nat
  propertyId : Nat
  provider : String
  sourceId : String
  listingId : Option String
  status : String
  listPrice : Option ℚ
  beds : Option Int
  baths : Option ℚ
  sqft : Option Int
  lastFetchAt : Int
  staleAfter : Int
deriving DecidableEq, Repr

/-- A row of `ingest_listing_photos`. -/
structure PhotoRow where
  id : Nat
  listingId : Nat
  href : String
  description : Option String
  mediaType : Option String
  kind : Option String
  tagsJSON : Option (List String)
  title : Option String
  position : Int
deriving DecidableEq, Repr

/-- A row of `ingest_listing_photo_tags`. -/
structure TagRow where
  photoId : Nat
  label : String
deriving DecidableEq, Repr

/-- A row of `ingest_provider_raw_snapshots` (the digest column is a
pure function of the payload and is not modelled separately). -/
structure SnapshotRow where
  provider : String
  endpoint : String
  externalId : String
  payload : String
deriving DecidableEq, Repr

/-- The relational state. -/
structure DBState where
  nextId : Nat
  properties : List PropertyRow
  listings : List ListingRow
  photos : List PhotoRow
  tags : List TagRow
  snapshots : List SnapshotRow
deriving DecidableEq, Repr

/-- `nullString` from `env.go`. -/
def nullString (v : String) : Option String :=
  if v = "" then none else some v

/-- The `ingest_properties` upsert (`ON CONFLICT (property_key) DO
UPDATE`): returns the property id and the new state. -/
def upsertProperty (db : DBState) (inp : UpsertInput) (now : Int) : Nat × DBState :=
  match db.properties.find? (fun r => r.propertyKey == inp.propertyKey) with
  | some r =>
    (r.id, { db with properties := db.properties.map (fun x =>
      if x.id = r.id then
        { x with address1 := inp.address1, city := inp.city, state := inp.state,
                 zip := inp.zip, lat := inp.lat, lon := inp.lon,
                 lastFetchAt := now, staleAfter := now + 300 }
      else x) })
  | none =>
    (db.nextId, { db with
      nextId := db.nextId + 1,
      properties := db.properties ++
        [⟨db.nextId, inp.propertyKey, inp.address1, inp.city, inp.state, inp.zip,
          inp.lat, inp.lon, now, now + 300⟩] })

/-- The `ingest_listings` upsert
(`ON CONFLICT (provider, source_id, listing_id) DO UPDATE`). -/
def upsertListing (db : DBState) (inp : UpsertInput) (propId : Nat) (now : Int) :
    Nat × DBState :=
  match db.listings.find? (fun r =>
      r.provider == inp.provider && r.sourceId == inp.sourceId &&
      r.listingId == inp.listingId) with
  | some r =>
    (r.id, { db with listings := db.listings.map (fun x =>
      if x.id = r.id then
        { x with propertyId := propId, status := inp.status,
                 listPrice := inp.listPrice, beds := inp.beds, baths := inp.baths,
                 sqft := inp.sqft, lastFetchAt := now, staleAfter := now + 300 }
      else x) })
  | none =>
    (db.nextId, { db with
      nextId := db.nextId + 1,
      listings := db.listings ++
        [⟨db.nextId, propId, inp.provider, inp.sourceId, inp.listingId, inp.status,
          inp.listPrice, inp.beds, inp.baths, inp.sqft, now, now + 300⟩] })

/-- The tag-insert loop of `replaceListingPhotosTx`: skip empty labels,
`ON CONFLICT (photo_id, label) DO NOTHING`. -/
def insertTags (photoId : Nat) (db : DBState) : List String → DBState
  | [] => db
  | label :: rest =>
    if label = "" then insertTags photoId db rest
    else if db.tags.any (fun t => t.photoId == photoId && t.label == label) then
      insertTags photoId db rest
    else insertTags photoId { db with tags := db.tags ++ [⟨photoId, label⟩] } rest

/-- The row `replaceListingPhotosTx` inserts for input `photo` at index
`idx` (a negative position falls back to the index). -/
def rowOf (db : DBState) (listingUUID : Nat) (idx : Nat) (photo : ListingPhotoInput) :
    PhotoRow :=
  ⟨db.nextId, listingUUID, photo.href,
   nullString photo.description, nullString photo.mediaType,
   nullString photo.kind,
   (if photo.tags.length > 0 then some photo.tags else none),
   nullString photo.title,
   (if photo.position < 0 then (idx : Int) else photo.position)⟩

/-- One iteration of the photo-insert loop on a non-empty `href`:
insert the photo row, then its tag rows. -/
def insertPhotoStep (listingUUID : Nat) (db : DBState) (idx : Nat)
    (photo : ListingPhotoInput) : DBState :=
  insertTags db.nextId
    { db with nextId := db.nextId + 1,
              photos := db.photos ++ [rowOf db listingUUID idx photo] }
    photo.tags

/-- The photo-insert loop of `replaceListingPhotosTx`: the items carry
their index in the original input slice (`for idx, photo := range`);
empty `href` is skipped. -/
def insertPhotosLoop (listingUUID : Nat) : DBState → List (Nat × ListingPhotoInput) → DBState
  | db, [] => db
  | db, (idx, photo) :: rest =>
    if photo.href = "" then insertPhotosLoop listingUUID db rest
    else insertPhotosLoop listingUUID (insertPhotoStep listingUUID db idx photo) rest

/-- `replaceListingPhotosTx` from `env.go`: delete the listing's photo
set (tag rows go with it via `ON DELETE CASCADE`), then re-insert. -/
def replaceListingPhotosTx (db : DBState) (listingUUID : Nat)
    (photos : List ListingPhotoInput) : DBState :=
  let victims := (db.photos.filter (fun r => r.listingId == listingUUID)).map (fun r => r.id)
  let db1 : DBState := { db with
    photos := db.photos.filter (fun r => ¬ r.listingId == listingUUID),
    tags := db.tags.filter (fun t => ¬ t.photoId ∈ victims) }
  insertPhotosLoop listingUUID db1 photos.enum

/-- Which step of `WriteSnapshotAndUpsert` fails, if any (error
injection standing for the SQL errors each statement can return). -/
structure FailSpec where
  failProperty : Bool
  failListing : Bool
  failPhotos : Bool
  failSnapshot : Bool
  failCommit : Bool
deriving DecidableEq, Repr

inductive StoreErr where
  | stepFailed
deriving DecidableEq, Repr

/-- `Store.WriteSnapshotAndUpsert` from `env.go`: one transaction around
property upsert, listing upsert, conditional photo replacement, raw
snapshot append.  Transactional semantics: the steps run on the
transaction-local state, and every error path returns with `err` set so
the deferred `tx.Rollback()` discards the transaction — the visible
state is the original `db`; only `tx.Commit()` publishes the new
state. -/
def WriteSnapshotAndUpsert (db : DBState) (inp : UpsertInput) (f : FailSpec)
    (now : Int) : Except StoreErr (Nat × Nat) × DBState :=
  if f.failProperty then (.error .stepFailed, db)
  else
    let pr := upsertProperty db inp now
    if f.failListing then (.error .stepFailed, db)
    else
      let lr := upsertListing pr.2 inp pr.1 now
      if f.failPhotos then (.error .stepFailed, db)
      else
        let tx3 := if inp.photos.length > 0 then
            replaceListingPhotosTx lr.2 lr.1 inp.photos
          else lr.2
        if f.failSnapshot then (.error .stepFailed, db)
        else
          let tx4 : DBState := { tx3 with snapshots := tx3.snapshots ++
            [⟨inp.provider, inp.endpoint, inp.externalId, inp.payload⟩] }
          if f.failCommit then (.error .stepFailed, db)
          else (.ok (pr.1, lr.1), tx4)

/-! ### C8: transactional atomicity of `WriteSnapshotAndUpsert` -/

theorem upsertProperty_found (db : DBState) (inp : UpsertInput) (now : Int) :
    ∃ pr ∈ (upsertProperty db inp now).2.properties,
      pr.id = (upsertProperty db inp now).1 ∧ pr.propertyKey = inp.propertyKey := by
  rcases hf : db.properties.find? (fun r => r.propertyKey == inp.propertyKey) with _ | r
  · refine ⟨⟨db.nextId, inp.propertyKey, inp.address1, inp.city, inp.state, inp.zip,
      inp.lat, inp.lon, now, now + 300⟩, ?_, ?_, rfl⟩
    · simp [upsertProperty, hf]
    · simp [upsertProperty, hf]
  · have hr : r ∈ db.properties := List.mem_of_find?_eq_some hf
    have hkey : r.propertyKey = inp.propertyKey := by
      have := List.find?_some hf
      simpa using this
    refine ⟨{ r with
        address1 := inp.address1, city := inp.city, state := inp.state,
        zip := inp.zip, lat := inp.lat, lon := inp.lon,
        lastFetchAt := now, staleAfter := now + 300 }, ?_, ?_, hkey⟩
    · simp only [upsertProperty, hf]
      exact List.mem_map.mpr ⟨r, hr, by simp⟩
    · simp [upsertProperty, hf]

theorem upsertProperty_preserves (db : DBState) (inp : UpsertInput) (now : Int) :
    (upsertProperty db inp now).2.listings = db.listings ∧
    (upsertProperty db inp now).2.photos = db.photos ∧
    (upsertProperty db inp now).2.tags = db.tags ∧
    (upsertProperty db inp now).2.snapshots = db.snapshots := by
  rcases hf : db.properties.find? (fun r => r.propertyKey == inp.propertyKey) with _ | r <;>
    simp [upsertProperty, hf]

theorem upsertListing_found (db : DBState) (inp : UpsertInput) (propId : Nat) (now : Int) :
    ∃ lr ∈ (upsertListing db inp propId now).2.listings,
      lr.id = (upsertListing db inp propId now).1 ∧ lr.propertyId = propId ∧
      lr.provider = inp.provider ∧ lr.sourceId = inp.sourceId ∧
      lr.listingId = inp.listingId := by
  rcases hf : db.listings.find? (fun r =>
      r.provider == inp.provider && r.sourceId == inp.sourceId &&
      r.listingId == inp.listingId) with _ | r
  · refine ⟨⟨db.nextId, propId, inp.provider, inp.sourceId, inp.listingId, inp.status,
      inp.listPrice, inp.beds, inp.baths, inp.sqft, now, now + 300⟩, ?_, ?_, rfl, rfl, rfl, rfl⟩
    · simp [upsertListing, hf]
    · simp [upsertListing, hf]
  · have hr : r ∈ db.listings := List.mem_of_find?_eq_some hf
    have hkey := List.find?_some hf
    simp only [Bool.and_eq_true, beq_iff_eq] at hkey
    refine ⟨{ r with
        propertyId := propId, status := inp.status,
        listPrice := inp.listPrice, beds := inp.beds, baths := inp.baths,
        sqft := inp.sqft, lastFetchAt := now, staleAfter := now + 300 },
      ?_, ?_, rfl, hkey.1.1, hkey.1.2, hkey.2⟩
    · simp only [upsertListing, hf]
      exact List.mem_map.mpr ⟨r, hr, by simp⟩
    · simp [upsertListing, hf]

theorem upsertListing_preserves (db : DBState) (inp : UpsertInput) (propId : Nat)
    (now : Int) :
    (upsertListing db inp propId now).2.properties = db.properties ∧
    (upsertListing db inp propId now).2.photos = db.photos ∧
    (upsertListing db inp propId now).2.tags = db.tags ∧
    (upsertListing db inp propId now).2.snapshots = db.snapshots := by
  rcases hf : db.listings.find? (fun r =>
      r.provider == inp.provider && r.sourceId == inp.sourceId &&
      r.listingId == inp.listingId) with _ | r <;>
    simp [upsertListing, hf]

theorem insertTags_preserves (photoId : Nat) :
    ∀ (l : List String) (db : DBState),
      (insertTags photoId db l).properties = db.properties ∧
      (insertTags photoId db l).listings = db.listings ∧
      (insertTags photoId db l).snapshots = db.snapshots ∧
      (insertTags photoId db l).photos = db.photos ∧
      (insertTags photoId db l).nextId = db.nextId := by
  intro l
  induction l with
  | nil =>
    intro db
    exact ⟨rfl, rfl, rfl, rfl, rfl⟩
  | cons label rest ih =>
    intro db
    simp only [insertTags]
    split
    · exact ih db
    · split
      · exact ih db
      · exact ih _

theorem insertPhotosLoop_preserves (uuid : Nat) :
    ∀ (items : List (Nat × ListingPhotoInput)) (db : DBState),
      (insertPhotosLoop uuid db items).properties = db.properties ∧
      (insertPhotosLoop uuid db items).listings = db.listings ∧
      (insertPhotosLoop uuid db items).snapshots = db.snapshots := by
  intro items
  induction items with
  | nil =>
    intro db
    exact ⟨rfl, rfl, rfl⟩
  | cons item rest ih =>
    intro db
    match item with
    | (idx, photo) =>
      simp only [insertPhotosLoop]
      split
      · exact ih db
      · refine ⟨?_, ?_, ?_⟩
        · rw [(ih _).1]
          simp only [insertPhotoStep]
          rw [(insertTags_preserves _ photo.tags _).1]
        · rw [(ih _).2.1]
          simp only [insertPhotoStep]
          rw [(insertTags_preserves _ photo.tags _).2.1]
        · rw [(ih _).2.2]
          simp only [insertPhotoStep]
          rw [(insertTags_preserves _ photo.tags _).2.2.1]

theorem replaceListingPhotosTx_preserves (db : DBState) (uuid : Nat)
    (photos : List ListingPhotoInput) :
    (replaceListingPhotosTx db uuid photos).properties = db.properties ∧
    (replaceListingPhotosTx db uuid photos).listings = db.listings ∧
    (replaceListingPhotosTx db uuid photos).snapshots = db.snapshots := by
  simp only [replaceListingPhotosTx]
  obtain ⟨h1, h2, h3⟩ := insertPhotosLoop_preserves uuid photos.enum _
  exact ⟨h1, h2, h3⟩

/-- C8: `WriteSnapshotAndUpsert` is atomic: when any of its steps
(property upsert, listing upsert, photo replacement, snapshot insert,
commit) fails, the call returns the error and the visible state is
exactly the pre-call state — no partial property/listing/photo state.
On success it returns the upserted property and listing ids (ids of
rows actually present, the listing referencing the property) and
appends exactly one raw snapshot row. -/
theorem C8_write_snapshot_atomic (db : DBState) (inp : UpsertInput) (f : FailSpec)
    (now : Int) :
    ((f.failProperty = true ∨ f.failListing = true ∨ f.failPhotos = true ∨
      f.failSnapshot = true ∨ f.failCommit = true) →
      (WriteSnapshotAndUpsert db inp f now).1 = .error .stepFailed ∧
      (WriteSnapshotAndUpsert db inp f now).2 = db) ∧
    (f = ⟨false, false, false, false, false⟩ →
      ∃ pid lid,
        (WriteSnapshotAndUpsert db inp f now).1 = .ok (pid, lid) ∧
        (∃ pr ∈ (WriteSnapshotAndUpsert db inp f now).2.properties,
          pr.id = pid ∧ pr.propertyKey = inp.propertyKey) ∧
        (∃ lr ∈ (WriteSnapshotAndUpsert db inp f now).2.listings,
          lr.id = lid ∧ lr.propertyId = pid ∧ lr.provider = inp.provider ∧
          lr.sourceId = inp.sourceId ∧ lr.listingId = inp.listingId) ∧
        (WriteSnapshotAndUpsert db inp f now).2.snapshots =
          db.snapshots ++ [⟨inp.provider, inp.endpoint, inp.externalId, inp.payload⟩]) := by
  constructor
  · intro h
    rcases f with ⟨fp, fl, fph, fs, fc⟩
    cases fp <;> cases fl <;> cases fph <;> cases fs <;> cases fc <;>
      simp_all [WriteSnapshotAndUpsert]
  · intro hf
    subst hf
    simp only [WriteSnapshotAndUpsert, Bool.false_eq_true, if_false]
    refine ⟨(upsertProperty db inp now).1,
      (upsertListing (upsertProperty db inp now).2 inp
        (upsertProperty db inp now).1 now).1, rfl, ?_, ?_, ?_⟩
    · obtain ⟨pr, hpr, hid, hkey⟩ := upsertProperty_found db inp now
      refine ⟨pr, ?_, hid, hkey⟩
      obtain ⟨hl1, _, _, _⟩ := upsertListing_preserves (upsertProperty db inp now).2 inp
        (upsertProperty db inp now).1 now
      split
      · obtain ⟨hr1, _, _⟩ := replaceListingPhotosTx_preserves
          (upsertListing (upsertProperty db inp now).2 inp
            (upsertProperty db inp now).1 now).2
          (upsertListing (upsertProperty db inp now).2 inp
            (upsertProperty db inp now).1 now).1 inp.photos
        simpa [hr1, hl1] using hpr
      · simpa [hl1] using hpr
    · obtain ⟨lr, hlr, hid, hpid, hprov, hsrc, hlid⟩ := upsertListing_found
        (upsertProperty db inp now).2 inp (upsertProperty db inp now).1 now
      refine ⟨lr, ?_, hid, hpid, hprov, hsrc, hlid⟩
      split
      · obtain ⟨_, hr2, _⟩ := replaceListingPhotosTx_preserves
          (upsertListing (upsertProperty db inp now).2 inp
            (upsertProperty db inp now).1 now).2
          (upsertListing (upsertProperty db inp now).2 inp
            (upsertProperty db inp now).1 now).1 inp.photos
        simpa [hr2] using hlr
      · exact hlr
    · obtain ⟨_, _, _, hs1⟩ := upsertProperty_preserves db inp now
      obtain ⟨_, _, _, hs2⟩ := upsertListing_preserves (upsertProperty db inp now).2 inp
        (upsertProperty db inp now).1 now
      split
      · obtain ⟨_, _, hr3⟩ := replaceListingPhotosTx_preserves
          (upsertListing (upsertProperty db inp now).2 inp
            (upsertProperty db inp now).1 now).2
          (upsertListing (upsertProperty db inp now).2 inp
            (upsertProperty db inp now).1 now).1 inp.photos
        simp [hr3, hs2, hs1]
      · simp [hs2, hs1]

/-! ### C9: idempotence of the photo-set replacement

Generated row ids differ between two runs, so "the same stored rows"
is read on the row contents: the *view* of a listing's photo rows —
every inserted column except the generated id, plus the tag labels
attached to the row — determines the stored state up to id renaming. -/

/-- The photo rows of one listing. -/
def photosOf (db : DBState) (uuid : Nat) : List PhotoRow :=
  db.photos.filter (fun r => r.listingId == uuid)

/-- The tag labels of one photo row, in insertion order. -/
def labelsOf (db : DBState) (pid : Nat) : List String :=
  (db.tags.filter (fun t => t.photoId == pid)).map (fun t => t.label)

/-- The id-independent content of a photo row together with its tags. -/
abbrev PhotoView := String × Option String × Option String × Option String ×
  Option (List String) × Option String × Int × List String

def viewRow (db : DBState) (r : PhotoRow) : PhotoView :=
  (r.href, r.description, r.mediaType, r.kind, r.tagsJSON, r.title, r.position,
   labelsOf db r.id)

/-- The stored view of a listing's photo set. -/
def photoView (db : DBState) (uuid : Nat) : List PhotoView :=
  (photosOf db uuid).map (viewRow db)

/-- The labels the tag-insert loop adds for one photo, given the labels
`acc` already present for it: empty labels skipped, duplicates
(including duplicates of `acc`) dropped. -/
def newLabels (acc : List String) : List String → List String
  | [] => []
  | l :: rest =>
    if l = "" then newLabels acc rest
    else if l ∈ acc then newLabels acc rest
    else l :: newLabels (acc ++ [l]) rest

/-- The view `replaceListingPhotosTx` produces for one indexed input. -/
def itemView (it : Nat × ListingPhotoInput) : PhotoView :=
  (it.2.href, nullString it.2.description, nullString it.2.mediaType,
   nullString it.2.kind,
   (if it.2.tags.length > 0 then some it.2.tags else none),
   nullString it.2.title,
   (if it.2.position < 0 then (it.1 : Int) else it.2.position),
   newLabels [] it.2.tags)

def viewOfItems (items : List (Nat × ListingPhotoInput)) : List PhotoView :=
  (items.filter (fun it => ¬ it.2.href = "")).map itemView

/-- The canonical stored view determined by an input list alone. -/
def viewOfInputs (ps : List ListingPhotoInput) : List PhotoView :=
  viewOfItems ps.enum

/-- Basic well-formedness: generated ids (in photo rows and referenced
from tag rows) are below the id counter. -/
def TagsBounded (db : DBState) : Prop :=
  (∀ r ∈ db.photos, r.id < db.nextId) ∧ (∀ t ∈ db.tags, t.photoId < db.nextId)

theorem mem_labelsOf_iff {db : DBState} {pid : Nat} {label : String} :
    label ∈ labelsOf db pid ↔ ∃ t ∈ db.tags, t.photoId = pid ∧ t.label = label := by
  simp only [labelsOf, List.mem_map, List.mem_filter, beq_iff_eq]
  constructor
  · rintro ⟨t, ⟨ht, hpid⟩, hlab⟩
    exact ⟨t, ht, hpid, hlab⟩
  · rintro ⟨t, ht, hpid, hlab⟩
    exact ⟨t, ⟨ht, hpid⟩, hlab⟩

theorem tagsAny_iff {db : DBState} {pid : Nat} {label : String} :
    db.tags.any (fun t => t.photoId == pid && t.label == label) = true ↔
      label ∈ labelsOf db pid := by
  rw [mem_labelsOf_iff]
  simp only [List.any_eq_true, Bool.and_eq_true, beq_iff_eq]

theorem labelsOf_append (tags' : List TagRow) (db : DBState) (pid : Nat) :
    labelsOf { db with tags := db.tags ++ tags' } pid =
      labelsOf db pid ++ (tags'.filter (fun t => t.photoId == pid)).map (fun t => t.label) := by
  simp [labelsOf, List.filter_append]

/-- The tag loop appends exactly the `newLabels` rows for `pid`. -/
theorem insertTags_tags :
    ∀ (l : List String) (db : DBState) (pid : Nat) (acc : List String),
      labelsOf db pid = acc →
      insertTags pid db l = { db with
        tags := db.tags ++ (newLabels acc l).map (fun s => ⟨pid, s⟩) } := by
  intro l
  induction l with
  | nil =>
    intro db pid acc hacc
    simp [insertTags, newLabels]
  | cons label rest ih =>
    intro db pid acc hacc
    by_cases h0 : label = ""
    · rw [show insertTags pid db (label :: rest) = insertTags pid db rest by
        simp [insertTags, h0]]
      rw [show newLabels acc (label :: rest) = newLabels acc rest by
        simp [newLabels, h0]]
      exact ih db pid acc hacc
    · by_cases h1 : label ∈ acc
      · have hany : db.tags.any (fun t => t.photoId == pid && t.label == label) = true :=
          tagsAny_iff.mpr (hacc ▸ h1)
        rw [show insertTags pid db (label :: rest) = insertTags pid db rest by
          simp [insertTags, h0, hany]]
        rw [show newLabels acc (label :: rest) = newLabels acc rest by
          simp [newLabels, h0, h1]]
        exact ih db pid acc hacc
      · have hany : db.tags.any (fun t => t.photoId == pid && t.label == label) = false := by
          rw [Bool.eq_false_iff]
          intro hcon
          exact h1 (hacc ▸ tagsAny_iff.mp hcon)
        have hstep : insertTags pid db (label :: rest) =
            insertTags pid { db with tags := db.tags ++ [⟨pid, label⟩] } rest := by
          simp [insertTags, h0, hany]
        rw [hstep]
        have hacc' : labelsOf { db with tags := db.tags ++ [⟨pid, label⟩] } pid =
            acc ++ [label] := by
          rw [labelsOf_append, hacc]
          simp
        rw [ih _ pid (acc ++ [label]) hacc']
        rw [show newLabels acc (label :: rest) = label :: newLabels (acc ++ [label]) rest by
          simp [newLabels, h0, h1]]
        simp

theorem newLabels_spec :
    ∀ (l acc : List String),
      (newLabels acc l).Nodup ∧ ∀ x ∈ newLabels acc l, x ∉ acc ∧ x ≠ "" := by
  intro l
  induction l with
  | nil =>
    intro acc
    simp [newLabels]
  | cons label rest ih =>
    intro acc
    by_cases h0 : label = ""
    · simpa [newLabels, h0] using ih acc
    · by_cases h1 : label ∈ acc
      · simpa [newLabels, h0, h1] using ih acc
      · obtain ⟨ihnd, ihmem⟩ := ih (acc ++ [label])
        have hne : label ∉ newLabels (acc ++ [label]) rest := by
          intro hcon
          exact (ihmem label hcon).1 (List.mem_append.mpr (Or.inr (List.mem_singleton.mpr rfl)))
        refine ⟨?_, ?_⟩
        · simp only [newLabels, h0, h1, if_false, ite_false]
          exact List.Nodup.cons hne ihnd
        · intro x hx
          simp only [newLabels, h0, h1, if_false, ite_false, List.mem_cons] at hx
          rcases hx with hx | hx
          · subst hx
            exact ⟨h1, h0⟩
          · obtain ⟨hxa, hxe⟩ := ihmem x hx
            exact ⟨fun hcon => hxa (List.mem_append.mpr (Or.inl hcon)), hxe⟩

theorem labelsOf_congr {db db' : DBState} (h : db.tags = db'.tags) (pid : Nat) :
    labelsOf db pid = labelsOf db' pid := by
  simp [labelsOf, h]

theorem labelsOf_nil_of_bounded {db : DBState} (h : TagsBounded db) :
    labelsOf db db.nextId = [] := by
  simp only [labelsOf, List.map_eq_nil]
  rw [List.filter_eq_nil]
  intro t ht
  have := h.2 t ht
  simp only [beq_iff_eq]
  omega

theorem filter_mapTag_ne {pid r : Nat} (hne : pid ≠ r) (L : List String) :
    (L.map (fun s => (⟨pid, s⟩ : TagRow))).filter (fun t => t.photoId == r) = [] := by
  rw [List.filter_eq_nil]
  intro t ht
  obtain ⟨s, _, hs⟩ := List.mem_map.mp ht
  subst hs
  simp [hne]

theorem filter_mapTag_self (pid : Nat) (L : List String) :
    ((L.map (fun s => (⟨pid, s⟩ : TagRow))).filter
      (fun t => t.photoId == pid)).map (fun t => t.label) = L := by
  have hall : ∀ t ∈ L.map (fun s => (⟨pid, s⟩ : TagRow)),
      (fun t : TagRow => t.photoId == pid) t = true := by
    intro t ht
    obtain ⟨s, _, hs⟩ := List.mem_map.mp ht
    subst hs
    simp
  rw [List.filter_eq_self.mpr hall, List.map_map]
  exact List.map_id' L

theorem insertPhotoStep_view (uuid : Nat) (db : DBState) (idx : Nat)
    (photo : ListingPhotoInput) (h : TagsBounded db) :
    photoView (insertPhotoStep uuid db idx photo) uuid =
      photoView db uuid ++ [itemView (idx, photo)] ∧
    TagsBounded (insertPhotoStep uuid db idx photo) := by
  have hlabnil : labelsOf db db.nextId = [] := labelsOf_nil_of_bounded h
  have hdb1 : labelsOf { db with
      nextId := db.nextId + 1,
      photos := db.photos ++ [rowOf db uuid idx photo] } db.nextId = [] := hlabnil
  have hstep : insertPhotoStep uuid db idx photo =
      { db with
        nextId := db.nextId + 1,
        photos := db.photos ++ [rowOf db uuid idx photo],
        tags := db.tags ++
          (newLabels [] photo.tags).map (fun s => ⟨db.nextId, s⟩) } := by
    rw [insertPhotoStep, insertTags_tags photo.tags _ db.nextId [] hdb1]
  rw [hstep]
  set dbF : DBState := { db with
    nextId := db.nextId + 1,
    photos := db.photos ++ [rowOf db uuid idx photo],
    tags := db.tags ++ (newLabels [] photo.tags).map (fun s => ⟨db.nextId, s⟩) }
  have hph : photosOf dbF uuid = photosOf db uuid ++ [rowOf db uuid idx photo] := by
    simp only [photosOf, dbF, List.filter_append]
    congr 1
    simp [rowOf]
  have hlabsF : ∀ pid, pid ≠ db.nextId → labelsOf dbF pid = labelsOf db pid := by
    intro pid hne
    have : labelsOf dbF pid = labelsOf db pid ++
        (((newLabels [] photo.tags).map (fun s => (⟨db.nextId, s⟩ : TagRow))).filter
          (fun t => t.photoId == pid)).map (fun t => t.label) := by
      exact labelsOf_append _ db pid
    rw [this, filter_mapTag_ne (fun hcon => hne hcon.symm)]
    simp
  have hlabNew : labelsOf dbF db.nextId = newLabels [] photo.tags := by
    have := labelsOf_append
      ((newLabels [] photo.tags).map (fun s => (⟨db.nextId, s⟩ : TagRow))) db db.nextId
    rw [show labelsOf dbF db.nextId = labelsOf db db.nextId ++
        (((newLabels [] photo.tags).map (fun s => (⟨db.nextId, s⟩ : TagRow))).filter
          (fun t => t.photoId == db.nextId)).map (fun t => t.label) from this]
    rw [hlabnil, filter_mapTag_self]
    simp
  constructor
  · simp only [photoView, hph, List.map_append, List.map_cons, List.map_nil]
    congr 1
    · refine List.map_congr_left ?_
      intro r hr
      have hrmem : r ∈ db.photos := List.mem_of_mem_filter hr
      have hlt := h.1 r hrmem
      simp only [viewRow]
      rw [hlabsF r.id (by omega)]
    · simp only [viewRow, itemView, rowOf]
      rw [hlabNew]
  · refine ⟨?_, ?_⟩
    · intro r hr
      simp only [dbF, List.mem_append, List.mem_singleton] at hr
      rcases hr with hr | hr
      · have := h.1 r hr
        simp only [dbF]
        omega
      · subst hr
        simp [dbF, rowOf]
    · intro t ht
      simp only [dbF, List.mem_append] at ht
      rcases ht with ht | ht
      · have := h.2 t ht
        simp only [dbF]
        omega
      · obtain ⟨s, _, hs⟩ := List.mem_map.mp ht
        subst hs
        simp [dbF]

theorem insertPhotosLoop_view (uuid : Nat) :
    ∀ (items : List (Nat × ListingPhotoInput)) (db : DBState), TagsBounded db →
      photoView (insertPhotosLoop uuid db items) uuid =
        photoView db uuid ++ viewOfItems items ∧
      TagsBounded (insertPhotosLoop uuid db items) := by
  intro items
  induction items with
  | nil =>
    intro db h
    refine ⟨?_, ?_⟩
    · simp [insertPhotosLoop, viewOfItems]
    · simpa [insertPhotosLoop] using h
  | cons item rest ih =>
    intro db h
    match item with
    | (idx, photo) =>
      by_cases hh : photo.href = ""
      · have hskip : insertPhotosLoop uuid db ((idx, photo) :: rest) =
            insertPhotosLoop uuid db rest := by
          simp [insertPhotosLoop, hh]
        have hview : viewOfItems ((idx, photo) :: rest) = viewOfItems rest := by
          simp [viewOfItems, hh]
        rw [hskip, hview]
        exact ih db h
      · have hstep : insertPhotosLoop uuid db ((idx, photo) :: rest) =
            insertPhotosLoop uuid (insertPhotoStep uuid db idx photo) rest := by
          simp [insertPhotosLoop, hh]
        have hview : viewOfItems ((idx, photo) :: rest) =
            itemView (idx, photo) :: viewOfItems rest := by
          simp [viewOfItems, hh]
        rw [hstep, hview]
        obtain ⟨hv1, hb1⟩ := insertPhotoStep_view uuid db idx photo h
        obtain ⟨hv2, hb2⟩ := ih (insertPhotoStep uuid db idx photo) hb1
        rw [hv2, hv1]
        exact ⟨by simp, hb2⟩

theorem replaceListingPhotosTx_view (db : DBState) (uuid : Nat)
    (ps : List ListingPhotoInput) (h : TagsBounded db) :
    photoView (replaceListingPhotosTx db uuid ps) uuid = viewOfInputs ps ∧
    TagsBounded (replaceListingPhotosTx db uuid ps) := by
  simp only [replaceListingPhotosTx]
  set dbD : DBState := { db with
    photos := db.photos.filter (fun r => ¬ r.listingId == uuid),
    tags := db.tags.filter (fun t => ¬ t.photoId ∈
      (db.photos.filter (fun r => r.listingId == uuid)).map (fun r => r.id)) }
  have hD : TagsBounded dbD := by
    constructor
    · intro r hr
      exact h.1 r (List.mem_of_mem_filter hr)
    · intro t ht
      exact h.2 t (List.mem_of_mem_filter ht)
  have hDview : photoView dbD uuid = [] := by
    simp only [photoView, photosOf, List.map_eq_nil]
    rw [List.filter_eq_nil]
    intro r hr
    have := List.mem_filter.mp hr
    simpa using this.2
  obtain ⟨hv, hb⟩ := insertPhotosLoop_view uuid ps.enum dbD hD
  rw [hv, hDview]
  exact ⟨by simp [viewOfInputs], hb⟩

/-- C9: replacing a listing's photo set is idempotent on the stored
contents: the view of the listing's rows after a replacement is a
function of the input list alone (old rows deleted first), so a second
application with the same input reproduces exactly the rows of the
first; the view records that empty-`href` entries are skipped, the
position falls back to the input index exactly when negative, tag rows
are deduplicated per (photo, label) and empty labels dropped, so every
stored photo row carries duplicate-free, nonempty tag labels. -/
theorem C9_replace_photos_idempotent (db : DBState) (uuid : Nat)
    (ps : List ListingPhotoInput) (h : TagsBounded db) :
    photoView (replaceListingPhotosTx (replaceListingPhotosTx db uuid ps) uuid ps) uuid =
      photoView (replaceListingPhotosTx db uuid ps) uuid ∧
    photoView (replaceListingPhotosTx db uuid ps) uuid = viewOfInputs ps ∧
    (∀ r ∈ photosOf (replaceListingPhotosTx db uuid ps) uuid,
      r.href ≠ "" ∧ (labelsOf (replaceListingPhotosTx db uuid ps) r.id).Nodup ∧
      "" ∉ labelsOf (replaceListingPhotosTx db uuid ps) r.id) := by
  obtain ⟨hv1, hb1⟩ := replaceListingPhotosTx_view db uuid ps h
  obtain ⟨hv2, _⟩ := replaceListingPhotosTx_view (replaceListingPhotosTx db uuid ps) uuid ps hb1
  refine ⟨by rw [hv1, hv2], hv1, ?_⟩
  intro r hr
  have hmem : viewRow (replaceListingPhotosTx db uuid ps) r ∈
      photoView (replaceListingPhotosTx db uuid ps) uuid :=
    List.mem_map_of_mem _ hr
  rw [hv1] at hmem
  obtain ⟨it, hit, hev⟩ := List.mem_map.mp hmem
  have hhref : ¬ it.2.href = "" := by
    have := List.mem_filter.mp hit
    simpa using this.2
  have h1 : r.href = it.2.href := by
    have := congrArg (fun v : PhotoView => v.1) hev
    simpa [itemView, viewRow] using this.symm
  have h8 : labelsOf (replaceListingPhotosTx db uuid ps) r.id =
      newLabels [] it.2.tags := by
    have := congrArg (fun v : PhotoView => v.2.2.2.2.2.2.2) hev
    simpa [itemView, viewRow] using this.symm
  obtain ⟨hnd, hnomem⟩ := newLabels_spec it.2.tags []
  refine ⟨by rw [h1]; exact hhref, by rw [h8]; exact hnd, ?_⟩
  rw [h8]
  intro hcon
  exact (hnomem "" hcon).2 rfl

def w8Photo : ListingPhotoInput :=
  ⟨"http://img.example/1.jpg", "front view", "Front", "photo", "image/jpeg",
   ["pool", "pool", ""], -1⟩

def w8Inp : UpsertInput :=
  ⟨"62704|1 main st|springfield|il", "1 MAIN ST", "SPRINGFIELD", "IL", "62704",
   some 39, some (-89), "rapidapi.realtor16", "src-1", some "L-1", "for_sale",
   some 100000, some 3, some 2, some 1200, [w8Photo], "search/forsale", "ext-1",
   "raw-payload"⟩

def w8DB : DBState := ⟨1, [], [], [], [], []⟩

theorem C8_witness :
    ((WriteSnapshotAndUpsert w8DB w8Inp ⟨false, true, false, false, false⟩ 0).1 =
        .error .stepFailed ∧
      (WriteSnapshotAndUpsert w8DB w8Inp ⟨false, true, false, false, false⟩ 0).2 = w8DB) ∧
    (∃ pid lid,
      (WriteSnapshotAndUpsert w8DB w8Inp ⟨false, false, false, false, false⟩ 0).1 =
        .ok (pid, lid) ∧
      (∃ pr ∈ (WriteSnapshotAndUpsert w8DB w8Inp
          ⟨false, false, false, false, false⟩ 0).2.properties,
        pr.id = pid ∧ pr.propertyKey = w8Inp.propertyKey) ∧
      (∃ lr ∈ (WriteSnapshotAndUpsert w8DB w8Inp
          ⟨false, false, false, false, false⟩ 0).2.listings,
        lr.id = lid ∧ lr.propertyId = pid ∧ lr.provider = w8Inp.provider ∧
        lr.sourceId = w8Inp.sourceId ∧ lr.listingId = w8Inp.listingId) ∧
      (WriteSnapshotAndUpsert w8DB w8Inp
          ⟨false, false, false, false, false⟩ 0).2.snapshots =
        w8DB.snapshots ++
          [⟨w8Inp.provider, w8Inp.endpoint, w8Inp.externalId, w8Inp.payload⟩]) :=
  ⟨(C8_write_snapshot_atomic w8DB w8Inp ⟨false, true, false, false, false⟩ 0).1
      (Or.inr (Or.inl rfl)),
    (C8_write_snapshot_atomic w8DB w8Inp ⟨false, false, false, false, false⟩ 0).2 rfl⟩

def w9DB : DBState := ⟨1, [], [], [], [], []⟩

def w9ps : List ListingPhotoInput :=
  [⟨"", "skipped: empty href", "", "", "", ["x"], 0⟩,
   ⟨"http://img.example/a.jpg", "a", "A", "photo", "image/jpeg",
    ["pool", "pool", "", "patio"], -1⟩,
   ⟨"http://img.example/b.jpg", "b", "B", "photo", "image/jpeg", [], 3⟩]

theorem C9_witness :
    TagsBounded w9DB ∧
    (photoView (replaceListingPhotosTx (replaceListingPhotosTx w9DB 7 w9ps) 7 w9ps) 7 =
        photoView (replaceListingPhotosTx w9DB 7 w9ps) 7 ∧
      photoView (replaceListingPhotosTx w9DB 7 w9ps) 7 = viewOfInputs w9ps ∧
      (∀ r ∈ photosOf (replaceListingPhotosTx w9DB 7 w9ps) 7,
        r.href ≠ "" ∧ (labelsOf (replaceListingPhotosTx w9DB 7 w9ps) r.id).Nodup ∧
        "" ∉ labelsOf (replaceListingPhotosTx w9DB 7 w9ps) r.id)) :=
  ⟨⟨fun r hr => absurd hr (List.not_mem_nil r),
    fun t ht => absurd ht (List.not_mem_nil t)⟩,
   C9_replace_photos_idempotent w9DB 7 w9ps
    ⟨fun r hr => absurd hr (List.not_mem_nil r),
     fun t ht => absurd ht (List.not_mem_nil t)⟩⟩

end Store

namespace Hydrator

def w7counts : Nat → Nat := fun p => if p ≤ 2 then 2 else 1

theorem C7_witness :
    ingestZipPages 2 5 w7counts = [1, 2, 3] ∧
    (ingestZipPages 2 5 w7counts =
        List.range' 1 (ingestZipPages 2 5 w7counts).length ∧
      (ingestZipPages 2 5 w7counts).length ≤ effMaxPages 5 ∧
      (∀ p ∈ ingestZipPages 2 5 w7counts,
        (w7counts p = 0 ∨ w7counts p < effPageSize 2) →
        ∀ q ∈ ingestZipPages 2 5 w7counts, q ≤ p)) :=
  ⟨by decide, C7_bulk_pagination 2 5 w7counts⟩

/-! ### C10: zero numeric values stored as SQL NULL (`hydrator.go`)

`float64`/`int64` are modelled as `ℚ`/`Int`; a `sql.Null*` with
`Valid=false` is `none`. -/

/-- `sqlNullFloat` from `hydrator.go`. -/
def sqlNullFloat (v : ℚ) : Option ℚ :=
  if v = 0 then none else some v

/-- `sqlNullFloat64` from `hydrator.go` (delegates to `sqlNullFloat`). -/
def sqlNullFloat64 (v : ℚ) : Option ℚ := sqlNullFloat v

/-- `sqlNullInt` from `hydrator.go`. -/
def sqlNullInt (v : Int) : Option Int :=
  if v = 0 then none else some v

/-- `sqlNullString` from `hydrator.go`. -/
def sqlNullString (s : String) : Option String :=
  if s = "" then none else some s

/-- `attom.PropertyCard` (the fields `Hydrator.Write` reads); `Coords`
is `[2]float64` ordered `[lng, lat]`, modelled as the pair
`(lng, lat)`. -/
structure PropertyCard where
  id : String
  price : Int
  beds : Int
  baths : Int
  sqft : Int
  images : List String
  coords : ℚ × ℚ
deriving DecidableEq, Repr

/-- The `store.UpsertInput` value built by `Hydrator.Write` (this
variant's `Photos` is the raw image URL list). -/
structure WInput where
  propertyKey : String
  address1 : String
  city : String
  state : String
  zip : String
  lat : Option ℚ
  lon : Option ℚ
  provider : String
  sourceId : String
  listingId : Option String
  status : String
  listPrice : Option ℚ
  beds : Option Int
  baths : Option ℚ
  sqft : Option Int
  photos : List String
  endpoint : String
  externalId : String
  payload : String
deriving DecidableEq, Repr

/-- The field mapping of `Hydrator.Write`: `norm` is the normalized-field
map, `card` the provider card. -/
def writeInput (provider endpoint payload : String) (norm : String → String)
    (card : PropertyCard) : WInput :=
  { propertyKey := norm "property_key"
    address1 := norm "line1"
    city := norm "city"
    state := norm "state"
    zip := norm "zip"
    lat := sqlNullFloat card.coords.2
    lon := sqlNullFloat card.coords.1
    provider := provider
    sourceId := card.id
    listingId := sqlNullString card.id
    status := "for_sale"
    listPrice := sqlNullFloat64 (card.price : ℚ)
    beds := sqlNullInt card.beds
    baths := sqlNullFloat64 (card.baths : ℚ)
    sqft := sqlNullInt card.sqft
    photos := card.images
    endpoint := endpoint
    externalId := card.id
    payload := payload }

theorem ifNone_eq_none_iff {α : Type} (c : Prop) [Decidable c] (v : α) :
    (if c then (none : Option α) else some v) = none ↔ c := by
  split <;> simp_all

/-- C10: in the write path's upsert input a zero-valued price, beds,
baths, sqft or coordinate is stored as SQL NULL (`none`) — each nullable
numeric column is NULL exactly when the card's value is `0`, so a
genuinely zero value is indistinguishable in storage from an absent
one. -/
theorem C10_zero_stored_as_null (provider endpoint payload : String)
    (norm : String → String) (card : PropertyCard) :
    ((writeInput provider endpoint payload norm card).listPrice = none ↔
      card.price = 0) ∧
    ((writeInput provider endpoint payload norm card).beds = none ↔
      card.beds = 0) ∧
    ((writeInput provider endpoint payload norm card).baths = none ↔
      card.baths = 0) ∧
    ((writeInput provider endpoint payload norm card).sqft = none ↔
      card.sqft = 0) ∧
    ((writeInput provider endpoint payload norm card).lat = none ↔
      card.coords.2 = 0) ∧
    ((writeInput provider endpoint payload norm card).lon = none ↔
      card.coords.1 = 0) := by
  refine ⟨?_, ?_, ?_, ?_, ?_, ?_⟩
  · rw [show (writeInput provider endpoint payload norm card).listPrice =
      sqlNullFloat64 (card.price : ℚ) from rfl, sqlNullFloat64, sqlNullFloat,
      ifNone_eq_none_iff]
    exact Int.cast_eq_zero
  · rw [show (writeInput provider endpoint payload norm card).beds =
      sqlNullInt card.beds from rfl, sqlNullInt, ifNone_eq_none_iff]
  · rw [show (writeInput provider endpoint payload norm card).baths =
      sqlNullFloat64 (card.baths : ℚ) from rfl, sqlNullFloat64, sqlNullFloat,
      ifNone_eq_none_iff]
    exact Int.cast_eq_zero
  · rw [show (writeInput provider endpoint payload norm card).sqft =
      sqlNullInt card.sqft from rfl, sqlNullInt, ifNone_eq_none_iff]
  · rw [show (writeInput provider endpoint payload norm card).lat =
      sqlNullFloat card.coords.2 from rfl, sqlNullFloat, ifNone_eq_none_iff]
  · rw [show (writeInput provider endpoint payload norm card).lon =
      sqlNullFloat card.coords.1 from rfl, sqlNullFloat, ifNone_eq_none_iff]

def w10card : PropertyCard :=
  ⟨"card-1", 0, 3, 0, 1200, ["http://img.example/1.jpg"], (0, 39)⟩

def w10norm : String → String := fun _ => "n"

theorem C10_witness :
    ((writeInput "p" "e" "raw" w10norm w10card).listPrice = none ↔
      w10card.price = 0) ∧
    ((writeInput "p" "e" "raw" w10norm w10card).beds = none ↔
      w10card.beds = 0) ∧
    ((writeInput "p" "e" "raw" w10norm w10card).baths = none ↔
      w10card.baths = 0) ∧
    ((writeInput "p" "e" "raw" w10norm w10card).sqft = none ↔
      w10card.sqft = 0) ∧
    ((writeInput "p" "e" "raw" w10norm w10card).lat = none ↔
      w10card.coords.2 = 0) ∧
    ((writeInput "p" "e" "raw" w10norm w10card).lon = none ↔
      w10card.coords.1 = 0) :=
  C10_zero_stored_as_null "p" "e" "raw" w10norm w10card

end Hydrator

end PropSvc
